import Mathlib

/-!
Verification of the Shareit repository (src/main.py) against its
natural-language specification.

The program has three core functions, all in src/main.py:
  * clean_text_for_pdf (lines 16-29): text cleaning for PDF layout,
  * validate_chat_url  (lines 31-44): share-link validation/normalization,
  * create_pdf         (lines 46-112) and extract_conversation (lines 114-156).

Strings are modelled as Lean `List Char` (Python `str` is a sequence of
Unicode code points, as is `List Char` here).  Python library primitives
used by the source (`str.replace`, `str.strip`, `str.split`,
`re.sub(r'\n\s*\n', '\n', ...)`, `re.match` of the two concrete patterns,
`html.unescape`) are embedded as executable Lean functions below, each with
a comment stating exactly which primitive it models and any restriction.
-/

/-- `sData s` is the character list of a string literal (Python `str` as a
list of code points). -/
def sData (s : String) : List Char :=
  s.data

/-- The backtick character (code point 96). -/
def bq : Char :=
  Char.ofNat 96

/-- Newline character. -/
def nlChar : Char :=
  Char.ofNat 10

/-- Left curly double quote U+201C. -/
def ldq : Char :=
  Char.ofNat 8220

/-- Right curly double quote U+201D. -/
def rdq : Char :=
  Char.ofNat 8221

/-- Left curly single quote U+2018. -/
def lsq : Char :=
  Char.ofNat 8216

/-- Right curly single quote U+2019. -/
def rsq : Char :=
  Char.ofNat 8217

/-- Models Python's notion of whitespace as used by `str.strip()` and by the
regex class `\s` in `re.sub(r'\n\s*\n', '\n', text)`, restricted to ASCII
whitespace (space, tab, newline, carriage return, vertical tab, form feed).
Python additionally treats some non-ASCII code points as whitespace; no text
handled by the claims involves those, and none of the proofs below depend on
which characters beyond `\n` count as whitespace. -/
def pyIsSpace (c : Char) : Bool :=
  c = ' ' || c = '\t' || c = nlChar || c = '\r' || c = Char.ofNat 11 || c = Char.ofNat 12

/-- Models Python `str.strip()` (with the whitespace set `pyIsSpace`):
drop leading and trailing whitespace. -/
def pyStrip (l : List Char) : List Char :=
  ((l.dropWhile pyIsSpace).reverse.dropWhile pyIsSpace).reverse

/-- Fuelled worker for `pyReplace`; the fuel is only a termination device
(`pyReplace` supplies `l.length`, which always suffices). -/
def pyReplaceF (pat rep : List Char) : List Char → Nat → List Char
  | [], _ => []
  | l, 0 => l
  | c :: r, fuel + 1 =>
    if pat ≠ [] ∧ pat.isPrefixOf (c :: r) then
      rep ++ pyReplaceF pat rep ((c :: r).drop pat.length) fuel
    else
      c :: pyReplaceF pat rep r fuel

/-- Models Python `str.replace(pat, rep)` (all occurrences, scanning left to
right, non-overlapping, replacements are not re-scanned).  The source only
ever calls `replace` with a non-empty pattern; for an empty pattern this
model is the identity. -/
def pyReplace (pat rep l : List Char) : List Char :=
  pyReplaceF pat rep l l.length

theorem pyReplaceF_fuel (pat rep : List Char) :
    ∀ f g l, l.length ≤ f → l.length ≤ g →
      pyReplaceF pat rep l f = pyReplaceF pat rep l g := by
  intro f
  induction f with
  | zero =>
    intro g l hf _
    have : l = [] := List.length_eq_zero.mp (Nat.le_zero.mp hf)
    subst this
    cases g <;> rfl
  | succ f ih =>
    intro g l hf hg
    cases l with
    | nil => cases g <;> rfl
    | cons c r =>
      cases g with
      | zero => exact absurd hg (by simp)
      | succ g =>
        show pyReplaceF pat rep (c :: r) (f + 1) = pyReplaceF pat rep (c :: r) (g + 1)
        by_cases h : pat ≠ [] ∧ pat.isPrefixOf (c :: r)
        · simp only [pyReplaceF, if_pos h]
          have hp : 1 ≤ pat.length := by
            cases pat with
            | nil => exact absurd rfl h.1
            | cons _ _ => simp
          have hlen : ((c :: r).drop pat.length).length ≤ f := by
            rw [List.length_drop]
            simp only [List.length_cons] at hf ⊢
            omega
          have hlen' : ((c :: r).drop pat.length).length ≤ g := by
            rw [List.length_drop]
            simp only [List.length_cons] at hg ⊢
            omega
          rw [ih _ _ hlen hlen']
        · simp only [pyReplaceF, if_neg h]
          have hlen : r.length ≤ f := by
            simp only [List.length_cons] at hf; omega
          have hlen' : r.length ≤ g := by
            simp only [List.length_cons] at hg; omega
          rw [ih _ _ hlen hlen']

theorem pyReplace_nil (pat rep : List Char) : pyReplace pat rep [] = [] := rfl

theorem pyReplace_pos (pat rep : List Char) (c : Char) (r : List Char)
    (hne : pat ≠ []) (hpfx : pat.isPrefixOf (c :: r)) :
    pyReplace pat rep (c :: r) = rep ++ pyReplace pat rep ((c :: r).drop pat.length) := by
  show pyReplaceF pat rep (c :: r) (r.length + 1) = _
  simp only [pyReplaceF, if_pos (And.intro hne hpfx)]
  have hp : 1 ≤ pat.length := by
    cases pat with
    | nil => exact absurd rfl hne
    | cons _ _ => simp
  have hx : ((c :: r).drop pat.length).length ≤ r.length := by
    rw [List.length_drop]
    simp only [List.length_cons]
    omega
  exact congrArg (fun t => rep ++ t)
    (pyReplaceF_fuel pat rep r.length _ _ hx (Nat.le_refl _))

theorem pyReplace_neg (pat rep : List Char) (c : Char) (r : List Char)
    (h : ¬ (pat ≠ [] ∧ pat.isPrefixOf (c :: r))) :
    pyReplace pat rep (c :: r) = c :: pyReplace pat rep r := by
  show pyReplaceF pat rep (c :: r) (r.length + 1) = _
  simp only [pyReplaceF, if_neg h]
  rfl

/-- Strong induction on the length of a list. -/
theorem list_length_ind {α : Type} {P : List α → Prop}
    (h : ∀ l, (∀ m : List α, m.length < l.length → P m) → P l) (l : List α) : P l := by
  have key : ∀ n (l : List α), l.length ≤ n → P l := by
    intro n
    induction n with
    | zero =>
      intro l hl
      exact h l (fun m hm => absurd (Nat.lt_of_lt_of_le hm hl) (Nat.not_lt_zero _))
    | succ n ih =>
      intro l hl
      exact h l (fun m hm => ih m (by omega))
  exact key l.length l (Nat.le_refl _)

theorem isPrefixOf_ex {p l : List Char} (h : p.isPrefixOf l = true) :
    ∃ r, l = p ++ r := by
  induction p generalizing l with
  | nil => exact ⟨l, rfl⟩
  | cons a p ih =>
    cases l with
    | nil => simp [List.isPrefixOf] at h
    | cons c r =>
      simp only [List.isPrefixOf, Bool.and_eq_true, beq_iff_eq] at h
      obtain ⟨r', hr'⟩ := ih h.2
      exact ⟨r', by simp [h.1, hr']⟩

theorem isPrefixOf_mem {p l : List Char} {c : Char}
    (h : p.isPrefixOf l = true) (hc : c ∈ p) : c ∈ l := by
  obtain ⟨r, hr⟩ := isPrefixOf_ex h
  subst hr
  exact List.mem_append_left _ hc

theorem isPrefixOf_append_self (p r : List Char) : p.isPrefixOf (p ++ r) = true := by
  induction p with
  | nil => simp [List.isPrefixOf]
  | cons a p ih => simp [List.isPrefixOf, ih]

/-- `str.replace` with a single-character pattern replaces every occurrence
of that character. -/
theorem pyReplace_single (a : Char) (rep : List Char) :
    ∀ l, pyReplace [a] rep l = l.flatMap (fun c => if c = a then rep else [c]) := by
  intro l
  induction l with
  | nil => rfl
  | cons c r ih =>
    by_cases hca : c = a
    · subst hca
      have hpfx : [c].isPrefixOf (c :: r) = true := by simp [List.isPrefixOf]
      rw [pyReplace_pos [c] rep c r (by simp) hpfx]
      simp [ih]
    · have hpfx : ¬ (([a] : List Char) ≠ [] ∧ [a].isPrefixOf (c :: r) = true) := by
        simp [List.isPrefixOf]
        intro h
        exact absurd h.symm hca
      rw [pyReplace_neg [a] rep c r hpfx]
      simp [ih, hca]

/-- A single-character to single-character `str.replace` is a `map`. -/
theorem pyReplace_single_map (a b : Char) (l : List Char) :
    pyReplace [a] [b] l = l.map (fun c => if c = a then b else c) := by
  rw [pyReplace_single]
  induction l with
  | nil => rfl
  | cons c r ih =>
    by_cases hca : c = a <;> simp [hca, ih]

/-- Number of occurrences of a character in a list (used to state how the
cleaning pipeline transforms quote characters). -/
def countC (c : Char) : List Char → Nat
  | [] => 0
  | x :: r => (if x = c then 1 else 0) + countC c r

theorem countC_append (c : Char) : ∀ a b, countC c (a ++ b) = countC c a + countC c b := by
  intro a b
  induction a with
  | nil => simp [countC]
  | cons x r ih => simp [countC, ih, Nat.add_assoc]

theorem countC_flatMap_single (a c : Char) (rep : List Char) (hne : c ≠ a) :
    ∀ l : List Char,
      countC c (l.flatMap (fun x => if x = a then rep else [x]))
        = countC c l + countC a l * countC c rep := by
  intro l
  induction l with
  | nil => simp [countC]
  | cons x r ih =>
    by_cases hxa : x = a
    · subst hxa
      rw [List.flatMap_cons, if_pos rfl, countC_append, ih]
      have hxc : ¬ (x = c) := fun h => hne h.symm
      simp only [countC, eq_self_iff_true, if_true, if_neg hxc]
      ring
    · rw [List.flatMap_cons, if_neg hxa, countC_append, ih]
      simp only [countC, if_neg hxa]
      ring

theorem countC_flatMap_single_self (a : Char) (rep : List Char) :
    ∀ l : List Char,
      countC a (l.flatMap (fun x => if x = a then rep else [x]))
        = countC a l * countC a rep := by
  intro l
  induction l with
  | nil => simp [countC]
  | cons x r ih =>
    by_cases hxa : x = a
    · subst hxa
      rw [List.flatMap_cons, if_pos rfl, countC_append, ih]
      simp only [countC, eq_self_iff_true, if_true]
      ring
    · rw [List.flatMap_cons, if_neg hxa, countC_append, ih]
      simp only [countC, if_neg hxa]
      ring

/-- Characters in the output of `str.replace` come from the input or from the
replacement text. -/
theorem mem_pyReplace {c : Char} (pat rep : List Char) :
    ∀ l, c ∈ pyReplace pat rep l → c ∈ l ∨ c ∈ rep := by
  intro l
  induction l using list_length_ind with
  | h l ih =>
    cases l with
    | nil => intro h; simp [pyReplace_nil] at h
    | cons x r =>
      intro hmem
      by_cases hp : (pat ≠ [] ∧ pat.isPrefixOf (x :: r) = true)
      · rw [pyReplace_pos pat rep x r hp.1 hp.2] at hmem
        rcases List.mem_append.mp hmem with h1 | h2
        · exact Or.inr h1
        · have hlt : ((x :: r).drop pat.length).length < (x :: r).length := by
            rw [List.length_drop]
            have : 1 ≤ pat.length := by
              cases pat with
              | nil => exact absurd rfl hp.1
              | cons _ _ => simp
            simp only [List.length_cons]
            omega
          rcases ih _ hlt h2 with h3 | h4
          · exact Or.inl (List.mem_of_mem_drop h3)
          · exact Or.inr h4
      · rw [pyReplace_neg pat rep x r hp] at hmem
        rcases List.mem_cons.mp hmem with h1 | h2
        · exact Or.inl (h1 ▸ List.mem_cons_self _ _)
        · rcases ih r (by simp) h2 with h3 | h4
          · exact Or.inl (List.mem_cons_of_mem _ h3)
          · exact Or.inr h4

/-- If the pattern occurs nowhere in `l` (witnessed by a character of the
pattern that is not in `l`), `str.replace` is the identity. -/
theorem pyReplace_id_of_not_mem {pat : List Char} {d : Char} (rep : List Char)
    (hd : d ∈ pat) : ∀ l, d ∉ l → pyReplace pat rep l = l := by
  intro l
  induction l with
  | nil => intro _; rfl
  | cons c r ih =>
    intro hnot
    have hnp : ¬ (pat ≠ [] ∧ pat.isPrefixOf (c :: r) = true) := by
      rintro ⟨-, hpfx⟩
      exact hnot (isPrefixOf_mem hpfx hd)
    rw [pyReplace_neg pat rep c r hnp]
    rw [ih (fun hmem => hnot (List.mem_cons_of_mem _ hmem))]

/-- Straight single quote (apostrophe, code point 39). -/
def sqc : Char :=
  Char.ofNat 39

/-- Representative table of HTML character references, in the order in which
they are tried: each entry is the reference text following `&` together with
the character it decodes to.  `html.unescape` in Python knows the full HTML5
entity list; this model restricts it to the entities relevant to the markup
characters, the quote characters handled by `clean_text_for_pdf`, and a few
common extras.  Longer (semicolon-terminated) spellings come first, matching
Python's longest-match behaviour on this subset. -/
def entityTable : List (List Char × Char) :=
  [(sData "amp;", '&'), (sData "lt;", '<'), (sData "gt;", '>'),
   (sData "quot;", '"'), (sData "apos;", sqc),
   (sData "#34;", '"'), (sData "#38;", '&'), (sData "#39;", sqc),
   (sData "#60;", '<'), (sData "#62;", '>'),
   (sData "#8216;", lsq), (sData "#8217;", rsq),
   (sData "#8220;", ldq), (sData "#8221;", rdq),
   (sData "ldquo;", ldq), (sData "rdquo;", rdq),
   (sData "lsquo;", lsq), (sData "rsquo;", rsq),
   (sData "nbsp;", Char.ofNat 160),
   (sData "amp", '&'), (sData "lt", '<'), (sData "gt", '>'), (sData "quot", '"')]

/-- Find the first table entry whose reference text is a prefix of `l`;
return the decoded character and the number of characters consumed. -/
def findEnt : List (List Char × Char) → List Char → Option (Char × Nat)
  | [], _ => none
  | (p, c) :: es, l => if p.isPrefixOf l then some (c, p.length) else findEnt es l

/-- Fuelled worker for `html_unescape` (fuel is only a termination device). -/
def unescF : List Char → Nat → List Char
  | [], _ => []
  | l, 0 => l
  | c :: r, f + 1 =>
    if c = '&' then
      match findEnt entityTable r with
      | some (e, n) => e :: unescF (r.drop n) f
      | none => c :: unescF r f
    else
      c :: unescF r f

/-- Models Python `html.unescape` (line 18 of the source), restricted to the
character-reference table `entityTable`: text is copied verbatim except that
`&` followed by a known character reference is decoded.  Text containing no
`&` is always left unchanged, exactly as in Python. -/
def html_unescape (l : List Char) : List Char :=
  unescF l l.length

theorem unescF_fuel :
    ∀ f g l, l.length ≤ f → l.length ≤ g → unescF l f = unescF l g := by
  intro f
  induction f with
  | zero =>
    intro g l hf _
    have : l = [] := List.length_eq_zero.mp (Nat.le_zero.mp hf)
    subst this
    cases g <;> rfl
  | succ f ih =>
    intro g l hf hg
    cases l with
    | nil => cases g <;> rfl
    | cons c r =>
      cases g with
      | zero => exact absurd hg (by simp)
      | succ g =>
        show unescF (c :: r) (f + 1) = unescF (c :: r) (g + 1)
        by_cases hc : c = '&'
        · subst hc
          cases hfind : findEnt entityTable r with
          | none =>
            have e1 : unescF ('&' :: r) (f + 1) = '&' :: unescF r f := by
              simp [unescF, hfind]
            have e2 : unescF ('&' :: r) (g + 1) = '&' :: unescF r g := by
              simp [unescF, hfind]
            have h1 : r.length ≤ f := by simp only [List.length_cons] at hf; omega
            have h2 : r.length ≤ g := by simp only [List.length_cons] at hg; omega
            rw [e1, e2, ih _ _ h1 h2]
          | some en =>
            cases en with
            | mk e n =>
              have e1 : unescF ('&' :: r) (f + 1) = e :: unescF (r.drop n) f := by
                simp [unescF, hfind]
              have e2 : unescF ('&' :: r) (g + 1) = e :: unescF (r.drop n) g := by
                simp [unescF, hfind]
              have h1 : (r.drop n).length ≤ f := by
                rw [List.length_drop]
                simp only [List.length_cons] at hf
                omega
              have h2 : (r.drop n).length ≤ g := by
                rw [List.length_drop]
                simp only [List.length_cons] at hg
                omega
              rw [e1, e2, ih _ _ h1 h2]
        · simp only [unescF, if_neg hc]
          have h1 : r.length ≤ f := by simp only [List.length_cons] at hf; omega
          have h2 : r.length ≤ g := by simp only [List.length_cons] at hg; omega
          rw [ih _ _ h1 h2]

theorem html_unescape_nil : html_unescape [] = [] := rfl

theorem html_unescape_amp (r : List Char) (e : Char) (n : Nat)
    (h : findEnt entityTable r = some (e, n)) :
    html_unescape ('&' :: r) = e :: html_unescape (r.drop n) := by
  show unescF ('&' :: r) (r.length + 1) = _
  have e1 : unescF ('&' :: r) (r.length + 1) = e :: unescF (r.drop n) r.length := by
    simp [unescF, h]
  rw [e1]
  have h1 : (r.drop n).length ≤ r.length := by
    rw [List.length_drop]; omega
  exact congrArg (fun t => e :: t) (unescF_fuel r.length _ _ h1 (Nat.le_refl _))

theorem html_unescape_amp_none (r : List Char)
    (h : findEnt entityTable r = none) :
    html_unescape ('&' :: r) = '&' :: html_unescape r := by
  show unescF ('&' :: r) (r.length + 1) = _
  simp [unescF, h]
  rfl

theorem html_unescape_cons (c : Char) (r : List Char) (h : c ≠ '&') :
    html_unescape (c :: r) = c :: html_unescape r := by
  show unescF (c :: r) (r.length + 1) = _
  simp only [unescF, if_neg h]
  rfl

theorem mem_of_takeWhile {p : Char → Bool} {x : Char} :
    ∀ l : List Char, x ∈ l.takeWhile p → x ∈ l := by
  intro l
  induction l with
  | nil => intro h; simp at h
  | cons c r ih =>
    intro h
    rw [List.takeWhile_cons] at h
    by_cases hp : p c
    · rw [if_pos hp] at h
      rcases List.mem_cons.mp h with h1 | h2
      · exact h1 ▸ List.mem_cons_self _ _
      · exact List.mem_cons_of_mem _ (ih h2)
    · rw [if_neg hp] at h
      simp at h

theorem takeWhile_append_all {p : Char → Bool} :
    ∀ w l : List Char, (∀ x ∈ w, p x = true) →
      (w ++ l).takeWhile p = w ++ l.takeWhile p := by
  intro w l hw
  induction w with
  | nil => rfl
  | cons c r ih =>
    have hc : p c = true := hw c (List.mem_cons_self _ _)
    simp only [List.cons_append, List.takeWhile_cons, if_pos hc]
    rw [ih (fun x hx => hw x (List.mem_cons_of_mem _ hx))]

/-- One-pass scanner modelling `re.sub(r'\n\s*\n', '\n', text)` (line 28 of
the source).  The regex matches a newline, then a greedy (maximal, with
backtracking so that the match ends on a newline) run of whitespace, then a
final newline; the leftmost such match is replaced by one newline, scanning
resumes after the match, and replacements are not re-scanned.  Equivalently:
within every maximal whitespace run containing at least two newlines,
everything from the first to the last newline collapses to a single newline;
this scanner performs exactly that in one pass.  `run = true` means the
scanner has just passed an emitted (or collapsed) newline and is still
inside the whitespace run following it, and `pending` holds the non-newline
whitespace seen since the last newline of that run, in reverse order.  On
meeting a further newline, `pending` and that newline are dropped (they are
part of the regex match); on meeting a non-whitespace character, `pending`
is flushed verbatim. -/
def cnl : Bool → List Char → List Char → List Char
  | run, pending, [] => if run then pending.reverse else []
  | run, pending, c :: r =>
    if run then
      if c = nlChar then cnl true [] r
      else if pyIsSpace c then cnl true (c :: pending) r
      else pending.reverse ++ (c :: cnl false [] r)
    else
      if c = nlChar then nlChar :: cnl true [] r
      else c :: cnl false [] r

/-- Models `re.sub(r'\n\s*\n', '\n', text)` from line 28 of the source. -/
def collapseNL (l : List Char) : List Char :=
  cnl false [] l

theorem cnl_false_nil (pending : List Char) : cnl false pending [] = [] := rfl

theorem cnl_true_nil (pending : List Char) :
    cnl true pending [] = pending.reverse := rfl

theorem cnl_false_nl (pending r : List Char) :
    cnl false pending (nlChar :: r) = nlChar :: cnl true [] r := by
  simp [cnl]

theorem cnl_false_cons {c : Char} (pending r : List Char) (h : c ≠ nlChar) :
    cnl false pending (c :: r) = c :: cnl false [] r := by
  simp [cnl, h]

theorem cnl_true_nl (pending r : List Char) :
    cnl true pending (nlChar :: r) = cnl true [] r := by
  simp [cnl]

theorem cnl_true_sp {c : Char} (pending r : List Char) (h : c ≠ nlChar)
    (hs : pyIsSpace c = true) :
    cnl true pending (c :: r) = cnl true (c :: pending) r := by
  simp [cnl, h, hs]

theorem cnl_true_em {c : Char} (pending r : List Char) (h : c ≠ nlChar)
    (hs : pyIsSpace c = false) :
    cnl true pending (c :: r) = pending.reverse ++ (c :: cnl false [] r) := by
  simp [cnl, h, hs]

/-- `noNN l` says the collapsing regex has no match in `l`: no newline is
followed, within the whitespace run after it, by another newline. -/
def noNN : List Char → Prop
  | [] => True
  | c :: r => (c = nlChar → nlChar ∉ r.takeWhile pyIsSpace) ∧ noNN r

theorem pyIsSpace_nl : pyIsSpace nlChar = true := by decide

theorem noNN_of_no_nl : ∀ l : List Char, nlChar ∉ l → noNN l := by
  intro l
  induction l with
  | nil => intro _; trivial
  | cons c r ih =>
    intro h
    refine ⟨fun hc => absurd (hc ▸ List.mem_cons_self _ _) h, ?_⟩
    exact ih (fun hm => h (List.mem_cons_of_mem _ hm))

theorem noNN_append_of_no_nl :
    ∀ w l : List Char, nlChar ∉ w → noNN l → noNN (w ++ l) := by
  intro w
  induction w with
  | nil => intro l _ hl; exact hl
  | cons c r ih =>
    intro l hw hl
    refine ⟨fun hc => absurd (hc ▸ List.mem_cons_self _ _) hw, ?_⟩
    exact ih l (fun hm => hw (List.mem_cons_of_mem _ hm)) hl

theorem cnl_true_takeWhile_no_nl :
    ∀ r pending : List Char,
      (∀ x ∈ pending, pyIsSpace x = true ∧ x ≠ nlChar) →
      nlChar ∉ (cnl true pending r).takeWhile pyIsSpace := by
  intro r
  induction r with
  | nil =>
    intro pending hp hmem
    rw [cnl_true_nil] at hmem
    have h1 : nlChar ∈ pending.reverse := mem_of_takeWhile _ hmem
    exact (hp _ (List.mem_reverse.mp h1)).2 rfl
  | cons c r ih =>
    intro pending hp
    by_cases hc : c = nlChar
    · subst hc
      rw [cnl_true_nl]
      exact ih [] (by simp)
    · by_cases hs : pyIsSpace c
      · rw [cnl_true_sp pending r hc hs]
        refine ih (c :: pending) ?_
        intro x hx
        rcases List.mem_cons.mp hx with h1 | h2
        · exact h1 ▸ ⟨hs, hc⟩
        · exact hp _ h2
      · rw [cnl_true_em pending r hc (by simpa using hs)]
        intro hmem
        have hall : ∀ x ∈ pending.reverse, pyIsSpace x = true :=
          fun x hx => (hp _ (List.mem_reverse.mp hx)).1
        rw [takeWhile_append_all _ _ hall] at hmem
        rcases List.mem_append.mp hmem with h1 | h2
        · exact (hp _ (List.mem_reverse.mp h1)).2 rfl
        · rw [List.takeWhile_cons, if_neg hs] at h2
          simp at h2

theorem noNN_cnl :
    ∀ r : List Char,
      (∀ pending, (∀ x ∈ pending, pyIsSpace x = true ∧ x ≠ nlChar) →
        noNN (cnl true pending r))
      ∧ noNN (cnl false [] r) := by
  intro r
  induction r with
  | nil =>
    constructor
    · intro pending hp
      rw [cnl_true_nil]
      refine noNN_of_no_nl _ (fun hm => ?_)
      exact (hp _ (List.mem_reverse.mp hm)).2 rfl
    · trivial
  | cons c r ih =>
    constructor
    · intro pending hp
      by_cases hc : c = nlChar
      · subst hc
        rw [cnl_true_nl]
        exact ih.1 [] (by simp)
      · by_cases hs : pyIsSpace c
        · rw [cnl_true_sp pending r hc hs]
          refine ih.1 (c :: pending) ?_
          intro x hx
          rcases List.mem_cons.mp hx with h1 | h2
          · exact h1 ▸ ⟨hs, hc⟩
          · exact hp _ h2
        · rw [cnl_true_em pending r hc (by simpa using hs)]
          refine noNN_append_of_no_nl _ _
            (fun hm => (hp _ (List.mem_reverse.mp hm)).2 rfl) ?_
          exact ⟨fun h => absurd h hc, ih.2⟩
    · by_cases hc : c = nlChar
      · subst hc
        rw [cnl_false_nl]
        refine ⟨fun _ => ?_, ih.1 [] (by simp)⟩
        exact cnl_true_takeWhile_no_nl r [] (by simp)
      · rw [cnl_false_cons [] r hc]
        exact ⟨fun h => absurd h hc, ih.2⟩

theorem cnl_fixed :
    ∀ l : List Char,
      (noNN l → cnl false [] l = l)
      ∧ (∀ pending, nlChar ∉ l.takeWhile pyIsSpace → noNN l →
          cnl true pending l = pending.reverse ++ l) := by
  intro l
  induction l with
  | nil =>
    constructor
    · intro _; rfl
    · intro pending _ _
      rw [cnl_true_nil]
      simp
  | cons c r ih =>
    constructor
    · intro hn
      by_cases hc : c = nlChar
      · subst hc
        rw [cnl_false_nl, ih.2 [] (hn.1 rfl) hn.2]
        rfl
      · rw [cnl_false_cons [] r hc, ih.1 hn.2]
    · intro pending htw hn
      by_cases hc : c = nlChar
      · exfalso
        apply htw
        subst hc
        rw [List.takeWhile_cons, if_pos pyIsSpace_nl]
        exact List.mem_cons_self _ _
      · by_cases hs : pyIsSpace c
        · rw [cnl_true_sp pending r hc hs]
          have htw' : nlChar ∉ r.takeWhile pyIsSpace := by
            intro hm
            apply htw
            rw [List.takeWhile_cons, if_pos hs]
            exact List.mem_cons_of_mem _ hm
          rw [ih.2 (c :: pending) htw' hn.2]
          simp
        · rw [cnl_true_em pending r hc (by simpa using hs), ih.1 hn.2]

theorem noNN_collapseNL (l : List Char) : noNN (collapseNL l) :=
  (noNN_cnl l).2

theorem collapseNL_fixed {l : List Char} (h : noNN l) : collapseNL l = l :=
  (cnl_fixed l).1 h

theorem mem_cnl {c : Char} :
    ∀ (r : List Char) (b : Bool) (pending : List Char),
      c ∈ cnl b pending r → c ∈ pending ∨ c ∈ r := by
  intro r
  induction r with
  | nil =>
    intro b pending h
    cases b with
    | true =>
      rw [cnl_true_nil] at h
      exact Or.inl (List.mem_reverse.mp h)
    | false =>
      rw [cnl_false_nil] at h
      simp at h
  | cons x r ih =>
    intro b pending h
    cases b with
    | true =>
      by_cases hx : x = nlChar
      · subst hx
        rw [cnl_true_nl] at h
        rcases ih true [] h with h1 | h2
        · simp at h1
        · exact Or.inr (List.mem_cons_of_mem _ h2)
      · by_cases hs : pyIsSpace x
        · rw [cnl_true_sp pending r hx hs] at h
          rcases ih true (x :: pending) h with h1 | h2
          · rcases List.mem_cons.mp h1 with h3 | h4
            · exact Or.inr (h3 ▸ List.mem_cons_self _ _)
            · exact Or.inl h4
          · exact Or.inr (List.mem_cons_of_mem _ h2)
        · rw [cnl_true_em pending r hx (by simpa using hs)] at h
          rcases List.mem_append.mp h with h1 | h2
          · exact Or.inl (List.mem_reverse.mp h1)
          · rcases List.mem_cons.mp h2 with h3 | h4
            · exact Or.inr (h3 ▸ List.mem_cons_self _ _)
            · rcases ih false [] h4 with h5 | h6
              · simp at h5
              · exact Or.inr (List.mem_cons_of_mem _ h6)
    | false =>
      by_cases hx : x = nlChar
      · subst hx
        rw [cnl_false_nl] at h
        rcases List.mem_cons.mp h with h1 | h2
        · exact Or.inr (h1 ▸ List.mem_cons_self _ _)
        · rcases ih true [] h2 with h3 | h4
          · simp at h3
          · exact Or.inr (List.mem_cons_of_mem _ h4)
      · rw [cnl_false_cons pending r hx] at h
        rcases List.mem_cons.mp h with h1 | h2
        · exact Or.inr (h1 ▸ List.mem_cons_self _ _)
        · rcases ih false [] h2 with h3 | h4
          · simp at h3
          · exact Or.inr (List.mem_cons_of_mem _ h4)

theorem mem_collapseNL {c : Char} {l : List Char} (h : c ∈ collapseNL l) : c ∈ l := by
  rcases mem_cnl l false [] h with h1 | h2
  · simp at h1
  · exact h2

theorem countC_eq_zero {c : Char} : ∀ l : List Char, c ∉ l → countC c l = 0 := by
  intro l
  induction l with
  | nil => intro _; rfl
  | cons x r ih =>
    intro h
    have hx : ¬ (x = c) := fun he => h (he ▸ List.mem_cons_self _ _)
    simp only [countC, if_neg hx, Nat.zero_add]
    exact ih (fun hm => h (List.mem_cons_of_mem _ hm))

theorem countC_cnl {c : Char} (hc : pyIsSpace c = false) :
    ∀ (r : List Char) (b : Bool) (pending : List Char),
      (∀ x ∈ pending, pyIsSpace x = true) →
      countC c (cnl b pending r) = countC c r := by
  intro r
  induction r with
  | nil =>
    intro b pending hp
    cases b with
    | true =>
      rw [cnl_true_nil, countC_eq_zero]
      · rfl
      · intro hm
        have hs := hp _ (List.mem_reverse.mp hm)
        rw [hs] at hc
        simp at hc
    | false => rfl
  | cons x r ih =>
    intro b pending hp
    have hx_of_space : pyIsSpace x = true → ¬ (x = c) := by
      intro hs he
      rw [he, hc] at hs
      simp at hs
    cases b with
    | true =>
      by_cases hx : x = nlChar
      · subst hx
        rw [cnl_true_nl, ih true [] (by simp)]
        simp only [countC, if_neg (hx_of_space pyIsSpace_nl), Nat.zero_add]
      · by_cases hs : pyIsSpace x
        · rw [cnl_true_sp pending r hx hs]
          rw [ih true (x :: pending) ?_]
          · simp only [countC, if_neg (hx_of_space hs), Nat.zero_add]
          · intro y hy
            rcases List.mem_cons.mp hy with h1 | h2
            · exact h1 ▸ hs
            · exact hp _ h2
        · rw [cnl_true_em pending r hx (by simpa using hs), countC_append]
          rw [countC_eq_zero pending.reverse ?_]
          · simp only [countC, ih false [] (by simp), Nat.zero_add]
          · intro hm
            have hsp := hp _ (List.mem_reverse.mp hm)
            rw [hsp] at hc
            simp at hc
    | false =>
      by_cases hx : x = nlChar
      · subst hx
        rw [cnl_false_nl]
        simp only [countC, ih true [] (by simp)]
      · rw [cnl_false_cons pending r hx]
        simp only [countC, ih false [] (by simp)]

theorem countC_collapseNL {c : Char} (hc : pyIsSpace c = false) (l : List Char) :
    countC c (collapseNL l) = countC c l :=
  countC_cnl hc l false [] (by simp)

theorem isPrefixOf_cnl_false :
    ∀ (w l : List Char), (∀ x ∈ w, x ≠ nlChar) → w.isPrefixOf l = true →
      w.isPrefixOf (cnl false [] l) = true := by
  intro w
  induction w with
  | nil => intro l _ _; simp [List.isPrefixOf]
  | cons a w ih =>
    intro l hw hpfx
    cases l with
    | nil => simp [List.isPrefixOf] at hpfx
    | cons c r =>
      simp only [List.isPrefixOf, Bool.and_eq_true, beq_iff_eq] at hpfx
      have hac : a = c := hpfx.1
      have hcnl : c ≠ nlChar := hac ▸ hw a (List.mem_cons_self _ _)
      rw [cnl_false_cons [] r hcnl]
      simp only [List.isPrefixOf, Bool.and_eq_true, beq_iff_eq]
      exact ⟨hac, ih r (fun x hx => hw x (List.mem_cons_of_mem _ hx)) hpfx.2⟩

theorem isPrefixOf_cnl_false_rev :
    ∀ (w l : List Char), (∀ x ∈ w, x ≠ nlChar) →
      w.isPrefixOf (cnl false [] l) = true → w.isPrefixOf l = true := by
  intro w
  induction w with
  | nil => intro l _ _; simp [List.isPrefixOf]
  | cons a w ih =>
    intro l hw hpfx
    cases l with
    | nil =>
      rw [cnl_false_nil] at hpfx
      simp [List.isPrefixOf] at hpfx
    | cons c r =>
      by_cases hcn : c = nlChar
      · subst hcn
        rw [cnl_false_nl] at hpfx
        simp only [List.isPrefixOf, Bool.and_eq_true, beq_iff_eq] at hpfx
        exact absurd hpfx.1 (hw a (List.mem_cons_self _ _))
      · rw [cnl_false_cons [] r hcn] at hpfx
        simp only [List.isPrefixOf, Bool.and_eq_true, beq_iff_eq] at hpfx ⊢
        exact ⟨hpfx.1, ih r (fun x hx => hw x (List.mem_cons_of_mem _ hx)) hpfx.2⟩

/-- `"&amp;"`. -/
def ampEnt : List Char := sData "&amp;"

/-- `"&lt;"`. -/
def ltEnt : List Char := sData "&lt;"

/-- `"&gt;"`. -/
def gtEnt : List Char := sData "&gt;"

/-- A literal triple backtick. -/
def bq3 : List Char := [bq, bq, bq]

/-- Models `clean_text_for_pdf` (source lines 16-29), one pipeline stage per
source line:
decode HTML entities (line 18); escape `&`, `<`, `>` in that order
(lines 19-21); replace `"` by `'` (line 22); normalize curly single quotes
to `'` (lines 23-24) and curly double quotes to `"` (lines 25-26); strip
triple backticks (line 27); collapse blank-line runs (line 28). -/
def clean_text_for_pdf (text : List Char) : List Char :=
  let t0 := html_unescape text
  let t1 := pyReplace ['&'] ampEnt t0
  let t2 := pyReplace ['<'] ltEnt t1
  let t3 := pyReplace ['>'] gtEnt t2
  let t4 := pyReplace ['"'] [sqc] t3
  let t5 := pyReplace [rsq] [sqc] t4
  let t6 := pyReplace [lsq] [sqc] t5
  let t7 := pyReplace [ldq] ['"'] t6
  let t8 := pyReplace [rdq] ['"'] t7
  let t9 := pyReplace bq3 [] t8
  collapseNL t9

theorem clean_unfold (text : List Char) :
    clean_text_for_pdf text =
      collapseNL (pyReplace bq3 []
        (pyReplace [rdq] ['"'] (pyReplace [ldq] ['"']
          (pyReplace [lsq] [sqc] (pyReplace [rsq] [sqc]
            (pyReplace ['"'] [sqc]
              (pyReplace ['>'] gtEnt (pyReplace ['<'] ltEnt
                (pyReplace ['&'] ampEnt (html_unescape text)))))))))) := rfl

/-- Combined effect of the three escape replacements (lines 19-21). -/
def escChar (c : Char) : List Char :=
  if c = '&' then ampEnt else if c = '<' then ltEnt
  else if c = '>' then gtEnt else [c]

theorem esc3_eq_flatMap (l : List Char) :
    pyReplace ['>'] gtEnt (pyReplace ['<'] ltEnt (pyReplace ['&'] ampEnt l))
      = l.flatMap escChar := by
  rw [pyReplace_single, pyReplace_single, pyReplace_single]
  induction l with
  | nil => rfl
  | cons c r ih =>
    rw [List.flatMap_cons, List.flatMap_append, List.flatMap_append, ih,
      List.flatMap_cons]
    congr 1
    by_cases h1 : c = '&'
    · subst h1; rfl
    · by_cases h2 : c = '<'
      · subst h2; rfl
      · by_cases h3 : c = '>'
        · subst h3; rfl
        · simp only [if_neg h1, if_neg h2, if_neg h3, escChar,
            List.flatMap_cons, List.flatMap_nil, List.append_nil]

/-- Every `&` in `l` opens one of the escapes `&amp;`, `&lt;`, `&gt;` - the
shape of all text produced by lines 19-21 of the source. -/
def ampOK : List Char → Prop
  | [] => True
  | c :: r =>
    (c = '&' →
      (sData "amp;").isPrefixOf r = true ∨ (sData "lt;").isPrefixOf r = true ∨
        (sData "gt;").isPrefixOf r = true)
    ∧ ampOK r

theorem ampOK_cons {c : Char} {r : List Char} (h : ampOK (c :: r)) : ampOK r :=
  h.2

theorem ampOK_append_right : ∀ a b : List Char, ampOK (a ++ b) → ampOK b := by
  intro a
  induction a with
  | nil => intro b h; exact h
  | cons c r ih => intro b h; exact ih b h.2

theorem ampOK_of_no_amp :
    ∀ w l : List Char, '&' ∉ w → ampOK l → ampOK (w ++ l) := by
  intro w
  induction w with
  | nil => intro l _ hl; exact hl
  | cons c r ih =>
    intro l hw hl
    refine ⟨fun hc => absurd (hc ▸ List.mem_cons_self _ _) hw, ?_⟩
    exact ih l (fun hm => hw (List.mem_cons_of_mem _ hm)) hl

theorem ampOK_flatMap_escChar : ∀ m : List Char, ampOK (m.flatMap escChar) := by
  intro m
  induction m with
  | nil => trivial
  | cons c r ih =>
    rw [List.flatMap_cons]
    by_cases h1 : c = '&'
    · subst h1
      show ampOK ('&' :: (sData "amp;" ++ r.flatMap escChar))
      refine ⟨fun _ => Or.inl ?_, ?_⟩
      · exact isPrefixOf_append_self _ _
      · exact ampOK_of_no_amp _ _ (by decide) ih
    · by_cases h2 : c = '<'
      · subst h2
        show ampOK ('&' :: (sData "lt;" ++ r.flatMap escChar))
        refine ⟨fun _ => Or.inr (Or.inl ?_), ?_⟩
        · exact isPrefixOf_append_self _ _
        · exact ampOK_of_no_amp _ _ (by decide) ih
      · by_cases h3 : c = '>'
        · subst h3
          show ampOK ('&' :: (sData "gt;" ++ r.flatMap escChar))
          refine ⟨fun _ => Or.inr (Or.inr ?_), ?_⟩
          · exact isPrefixOf_append_self _ _
          · exact ampOK_of_no_amp _ _ (by decide) ih
        · show ampOK (escChar c ++ r.flatMap escChar)
          simp only [escChar, if_neg h1, if_neg h2, if_neg h3]
          exact ⟨fun hc => absurd hc h1, ih⟩

/-- The characters that make up the `&`-escapes. -/
def ampRelChars : List Char := ['&', 'a', 'm', 'p', ';', 'l', 't', 'g']

theorem ampOK_of_no_amp' : ∀ l : List Char, '&' ∉ l → ampOK l := by
  intro l
  induction l with
  | nil => intro _; trivial
  | cons c r ih =>
    intro h
    refine ⟨fun hc => absurd (hc ▸ List.mem_cons_self _ _) h, ?_⟩
    exact ih (fun hm => h (List.mem_cons_of_mem _ hm))

theorem isPrefixOf_map_fix {f : Char → Char} :
    ∀ w l : List Char, (∀ x ∈ w, f x = x) → w.isPrefixOf l = true →
      w.isPrefixOf (l.map f) = true := by
  intro w
  induction w with
  | nil => intro l _ _; simp [List.isPrefixOf]
  | cons a w ih =>
    intro l hf hpfx
    cases l with
    | nil => simp [List.isPrefixOf] at hpfx
    | cons c r =>
      simp only [List.isPrefixOf, Bool.and_eq_true, beq_iff_eq] at hpfx
      rw [List.map_cons]
      simp only [List.isPrefixOf, Bool.and_eq_true, beq_iff_eq]
      refine ⟨?_, ih r (fun x hx => hf x (List.mem_cons_of_mem _ hx)) hpfx.2⟩
      rw [← hpfx.1, hf a (List.mem_cons_self _ _)]

theorem ampOK_map_single {a b : Char}
    (ha : a ∉ ampRelChars) (hb : b ∉ ampRelChars) :
    ∀ l, ampOK l → ampOK (l.map (fun c => if c = a then b else c)) := by
  have hamp : ('&' : Char) ∈ ampRelChars := by decide
  have hfc : ∀ c : Char, (if c = a then b else c) = '&' → c = '&' := by
    intro c hc
    by_cases hca : c = a
    · rw [if_pos hca] at hc
      exact absurd (hc ▸ hamp) hb
    · rwa [if_neg hca] at hc
  have hfix : ∀ w : List Char, (∀ x ∈ w, x ∈ ampRelChars) →
      ∀ x ∈ w, (if x = a then b else x) = x := by
    intro w hw x hx
    have : x ≠ a := fun he => ha (he ▸ hw x hx)
    rw [if_neg this]
  intro l
  induction l with
  | nil => intro _; trivial
  | cons c r ih =>
    intro h
    rw [List.map_cons]
    refine ⟨fun hc => ?_, ih h.2⟩
    have hc' : c = '&' := hfc c hc
    rcases h.1 hc' with h1 | h2 | h3
    · exact Or.inl (isPrefixOf_map_fix _ r (hfix _ (by decide)) h1)
    · exact Or.inr (Or.inl (isPrefixOf_map_fix _ r (hfix _ (by decide)) h2))
    · exact Or.inr (Or.inr (isPrefixOf_map_fix _ r (hfix _ (by decide)) h3))

theorem isPrefixOf_pyReplace_bq3 :
    ∀ w r : List Char, bq ∉ w → w.isPrefixOf r = true →
      w.isPrefixOf (pyReplace bq3 [] r) = true := by
  intro w
  induction w with
  | nil => intro r _ _; simp [List.isPrefixOf]
  | cons a w ih =>
    intro r hw hpfx
    cases r with
    | nil => simp [List.isPrefixOf] at hpfx
    | cons c r' =>
      simp only [List.isPrefixOf, Bool.and_eq_true, beq_iff_eq] at hpfx
      have hac : a = c := hpfx.1
      have hcb : c ≠ bq := fun he =>
        hw (he ▸ hac ▸ List.mem_cons_self a w)
      have hnp : ¬ ((bq3 : List Char) ≠ [] ∧ bq3.isPrefixOf (c :: r') = true) := by
        rintro ⟨-, hp⟩
        simp only [bq3, List.isPrefixOf, Bool.and_eq_true, beq_iff_eq] at hp
        exact hcb hp.1.symm
      rw [pyReplace_neg _ _ _ _ hnp]
      simp only [List.isPrefixOf, Bool.and_eq_true, beq_iff_eq]
      exact ⟨hac, ih r' (fun hx => hw (List.mem_cons_of_mem _ hx)) hpfx.2⟩

theorem ampOK_pyReplace_bq3 : ∀ l, ampOK l → ampOK (pyReplace bq3 [] l) := by
  intro l
  induction l using list_length_ind with
  | h l ih =>
    cases l with
    | nil => intro _; trivial
    | cons c r =>
      intro h
      by_cases hpfx : bq3.isPrefixOf (c :: r) = true
      · obtain ⟨rest, hrest⟩ := isPrefixOf_ex hpfx
        rw [pyReplace_pos _ _ _ _ (by decide) hpfx, List.nil_append]
        have hdrop : (c :: r).drop (bq3 : List Char).length = rest := by
          rw [hrest]
          exact List.drop_left _ _
        rw [hdrop]
        have hrest_ok : ampOK rest := ampOK_append_right bq3 rest (hrest ▸ h)
        have hlen : rest.length < (c :: r).length := by
          have h' : (c :: r).length = (bq3 : List Char).length + rest.length := by
            rw [hrest, List.length_append]
          rw [show (bq3 : List Char).length = 3 from rfl] at h'
          omega
        exact ih rest hlen hrest_ok
      · rw [pyReplace_neg _ _ _ _ (fun hand => hpfx hand.2)]
        refine ⟨fun hc => ?_, ih r (by simp) h.2⟩
        rcases h.1 hc with h1 | h2 | h3
        · exact Or.inl (isPrefixOf_pyReplace_bq3 _ r (by decide) h1)
        · exact Or.inr (Or.inl (isPrefixOf_pyReplace_bq3 _ r (by decide) h2))
        · exact Or.inr (Or.inr (isPrefixOf_pyReplace_bq3 _ r (by decide) h3))

theorem ampOK_cnl :
    ∀ (r : List Char) (b : Bool) (pending : List Char),
      ampOK r → (∀ x ∈ pending, pyIsSpace x = true) →
      ampOK (cnl b pending r) := by
  have hno_amp : ∀ pending : List Char,
      (∀ x ∈ pending, pyIsSpace x = true) → '&' ∉ pending.reverse := by
    intro pending hp hm
    exact absurd (hp _ (List.mem_reverse.mp hm)) (by decide)
  intro r
  induction r with
  | nil =>
    intro b pending h hp
    cases b with
    | true =>
      rw [cnl_true_nil]
      exact ampOK_of_no_amp' _ (hno_amp pending hp)
    | false => trivial
  | cons x r ih =>
    intro b pending h hp
    have hinner : ampOK (x :: cnl false [] r) := by
      refine ⟨fun hc => ?_, ih false [] h.2 (by simp)⟩
      rcases h.1 hc with h1 | h2 | h3
      · exact Or.inl (isPrefixOf_cnl_false _ r (by decide) h1)
      · exact Or.inr (Or.inl (isPrefixOf_cnl_false _ r (by decide) h2))
      · exact Or.inr (Or.inr (isPrefixOf_cnl_false _ r (by decide) h3))
    cases b with
    | true =>
      by_cases hx : x = nlChar
      · subst hx
        rw [cnl_true_nl]
        exact ih true [] h.2 (by simp)
      · by_cases hs : pyIsSpace x
        · rw [cnl_true_sp pending r hx hs]
          refine ih true (x :: pending) h.2 ?_
          intro y hy
          rcases List.mem_cons.mp hy with h1 | h2
          · exact h1 ▸ hs
          · exact hp _ h2
        · rw [cnl_true_em pending r hx (by simpa using hs)]
          exact ampOK_of_no_amp _ _ (hno_amp pending hp) hinner
    | false =>
      by_cases hx : x = nlChar
      · subst hx
        rw [cnl_false_nl]
        refine ⟨fun hc => absurd hc (by decide), ?_⟩
        exact ih true [] h.2 (by simp)
      · rw [cnl_false_cons pending r hx]
        exact hinner

/-- `noT l` says `l` contains no literal triple backtick. -/
def noT : List Char → Prop
  | [] => True
  | c :: r => ¬ (bq3.isPrefixOf (c :: r) = true) ∧ noT r

theorem bq3_pfx_cons (c : Char) (r : List Char) :
    bq3.isPrefixOf (c :: r) = ((bq == c) && [bq, bq].isPrefixOf r) := rfl

theorem bq2_pfx_cons (c : Char) (r : List Char) :
    [bq, bq].isPrefixOf (c :: r) = ((bq == c) && [bq].isPrefixOf r) := rfl

theorem bq1_pfx_cons (c : Char) (r : List Char) :
    [bq].isPrefixOf (c :: r) = ((bq == c) && [].isPrefixOf r) := rfl

theorem noT_of_no_bq : ∀ l : List Char, bq ∉ l → noT l := by
  intro l
  induction l with
  | nil => intro _; trivial
  | cons c r ih =>
    intro h
    refine ⟨fun hp => ?_, ih (fun hm => h (List.mem_cons_of_mem _ hm))⟩
    exact h (isPrefixOf_mem hp (by decide))

theorem noT_append_of_no_bq :
    ∀ w l : List Char, bq ∉ w → noT l → noT (w ++ l) := by
  intro w
  induction w with
  | nil => intro l _ hl; exact hl
  | cons c r ih =>
    intro l hw hl
    refine ⟨fun hp => ?_, ih l (fun hm => hw (List.mem_cons_of_mem _ hm)) hl⟩
    rw [bq3_pfx_cons, Bool.and_eq_true, beq_iff_eq] at hp
    exact hw (hp.1 ▸ List.mem_cons_self _ _)

theorem bq1_pfx_pyReplace :
    ∀ r : List Char, [bq].isPrefixOf (pyReplace bq3 [] r) = true →
      [bq].isPrefixOf r = true := by
  intro r
  cases r with
  | nil => intro h; simp [pyReplace_nil, List.isPrefixOf] at h
  | cons d r' =>
    intro h
    by_cases hpfx : bq3.isPrefixOf (d :: r') = true
    · rw [bq3_pfx_cons, Bool.and_eq_true, beq_iff_eq] at hpfx
      rw [bq1_pfx_cons, Bool.and_eq_true, beq_iff_eq]
      exact ⟨hpfx.1, by simp [List.isPrefixOf]⟩
    · rw [pyReplace_neg _ _ _ _ (fun hand => hpfx hand.2)] at h
      rw [bq1_pfx_cons, Bool.and_eq_true, beq_iff_eq] at h
      rw [bq1_pfx_cons, Bool.and_eq_true, beq_iff_eq]
      exact ⟨h.1, by simp [List.isPrefixOf]⟩

theorem bq2_pfx_pyReplace :
    ∀ r : List Char, [bq, bq].isPrefixOf (pyReplace bq3 [] r) = true →
      [bq, bq].isPrefixOf r = true := by
  intro r
  cases r with
  | nil => intro h; simp [pyReplace_nil, List.isPrefixOf] at h
  | cons d r' =>
    intro h
    by_cases hpfx : bq3.isPrefixOf (d :: r') = true
    · rw [bq3_pfx_cons, Bool.and_eq_true, beq_iff_eq] at hpfx
      rw [bq2_pfx_cons, Bool.and_eq_true, beq_iff_eq]
      refine ⟨hpfx.1, ?_⟩
      cases r' with
      | nil => exact absurd hpfx.2 (by simp [List.isPrefixOf])
      | cons e r'' =>
        have h2 := hpfx.2
        rw [bq2_pfx_cons, Bool.and_eq_true, beq_iff_eq] at h2
        rw [bq1_pfx_cons, Bool.and_eq_true, beq_iff_eq]
        exact ⟨h2.1, by simp [List.isPrefixOf]⟩
    · rw [pyReplace_neg _ _ _ _ (fun hand => hpfx hand.2)] at h
      rw [bq2_pfx_cons, Bool.and_eq_true, beq_iff_eq] at h
      rw [bq2_pfx_cons, Bool.and_eq_true, beq_iff_eq]
      exact ⟨h.1, bq1_pfx_pyReplace r' h.2⟩

theorem noT_pyReplace_bq3 : ∀ l, noT (pyReplace bq3 [] l) := by
  intro l
  induction l using list_length_ind with
  | h l ih =>
    cases l with
    | nil => trivial
    | cons c r =>
      by_cases hpfx : bq3.isPrefixOf (c :: r) = true
      · obtain ⟨rest, hrest⟩ := isPrefixOf_ex hpfx
        rw [pyReplace_pos _ _ _ _ (by decide) hpfx, List.nil_append]
        have hdrop : (c :: r).drop (bq3 : List Char).length = rest := by
          rw [hrest]
          exact List.drop_left _ _
        rw [hdrop]
        have hlen : rest.length < (c :: r).length := by
          have h' : (c :: r).length = (bq3 : List Char).length + rest.length := by
            rw [hrest, List.length_append]
          rw [show (bq3 : List Char).length = 3 from rfl] at h'
          omega
        exact ih rest hlen
      · rw [pyReplace_neg _ _ _ _ (fun hand => hpfx hand.2)]
        refine ⟨fun hp => ?_, ih r (by simp)⟩
        rw [bq3_pfx_cons, Bool.and_eq_true, beq_iff_eq] at hp
        apply hpfx
        rw [bq3_pfx_cons, Bool.and_eq_true, beq_iff_eq]
        exact ⟨hp.1, bq2_pfx_pyReplace r hp.2⟩

theorem noT_pyReplace_id : ∀ l, noT l → pyReplace bq3 [] l = l := by
  intro l
  induction l with
  | nil => intro _; rfl
  | cons c r ih =>
    intro h
    rw [pyReplace_neg _ _ _ _ (fun hand => h.1 hand.2)]
    rw [ih h.2]

theorem noT_cnl :
    ∀ (r : List Char) (b : Bool) (pending : List Char),
      noT r → (∀ x ∈ pending, pyIsSpace x = true) →
      noT (cnl b pending r) := by
  have hno_bq : ∀ pending : List Char,
      (∀ x ∈ pending, pyIsSpace x = true) → bq ∉ pending.reverse := by
    intro pending hp hm
    exact absurd (hp _ (List.mem_reverse.mp hm)) (by decide)
  intro r
  induction r with
  | nil =>
    intro b pending h hp
    cases b with
    | true =>
      rw [cnl_true_nil]
      exact noT_of_no_bq _ (hno_bq pending hp)
    | false => trivial
  | cons x r ih =>
    intro b pending h hp
    have hinner : noT (x :: cnl false [] r) := by
      refine ⟨fun hp' => ?_, ih false [] h.2 (by simp)⟩
      rw [bq3_pfx_cons, Bool.and_eq_true, beq_iff_eq] at hp'
      apply h.1
      rw [bq3_pfx_cons, Bool.and_eq_true, beq_iff_eq]
      exact ⟨hp'.1, isPrefixOf_cnl_false_rev [bq, bq] r (by decide) hp'.2⟩
    cases b with
    | true =>
      by_cases hx : x = nlChar
      · subst hx
        rw [cnl_true_nl]
        exact ih true [] h.2 (by simp)
      · by_cases hs : pyIsSpace x
        · rw [cnl_true_sp pending r hx hs]
          refine ih true (x :: pending) h.2 ?_
          intro y hy
          rcases List.mem_cons.mp hy with h1 | h2
          · exact h1 ▸ hs
          · exact hp _ h2
        · rw [cnl_true_em pending r hx (by simpa using hs)]
          exact noT_append_of_no_bq _ _ (hno_bq pending hp) hinner
    | false =>
      by_cases hx : x = nlChar
      · subst hx
        rw [cnl_false_nl]
        refine ⟨fun hp' => ?_, ih true [] h.2 (by simp)⟩
        rw [bq3_pfx_cons, Bool.and_eq_true, beq_iff_eq] at hp'
        exact absurd hp'.1 (by decide)
      · rw [cnl_false_cons pending r hx]
        exact hinner

theorem not_mem_flatMap_escChar_lt : ∀ m : List Char, '<' ∉ m.flatMap escChar := by
  intro m hm
  obtain ⟨a, _, hmem⟩ := List.mem_flatMap.mp hm
  by_cases h1 : a = '&'
  · rw [escChar, if_pos h1] at hmem
    exact absurd hmem (by decide)
  · by_cases h2 : a = '<'
    · rw [escChar, if_neg h1, if_pos h2] at hmem
      exact absurd hmem (by decide)
    · by_cases h3 : a = '>'
      · rw [escChar, if_neg h1, if_neg h2, if_pos h3] at hmem
        exact absurd hmem (by decide)
      · rw [escChar, if_neg h1, if_neg h2, if_neg h3] at hmem
        rcases List.mem_cons.mp hmem with h4 | h4
        · exact h2 h4.symm
        · simp at h4

theorem not_mem_flatMap_escChar_gt : ∀ m : List Char, '>' ∉ m.flatMap escChar := by
  intro m hm
  obtain ⟨a, _, hmem⟩ := List.mem_flatMap.mp hm
  by_cases h1 : a = '&'
  · rw [escChar, if_pos h1] at hmem
    exact absurd hmem (by decide)
  · by_cases h2 : a = '<'
    · rw [escChar, if_neg h1, if_pos h2] at hmem
      exact absurd hmem (by decide)
    · by_cases h3 : a = '>'
      · rw [escChar, if_neg h1, if_neg h2, if_pos h3] at hmem
        exact absurd hmem (by decide)
      · rw [escChar, if_neg h1, if_neg h2, if_neg h3] at hmem
        rcases List.mem_cons.mp hmem with h4 | h4
        · exact h3 h4.symm
        · simp at h4

theorem not_mem_map_single {a b d : Char} (hbd : d ≠ b) {l : List Char}
    (hl : d ∉ l) : d ∉ l.map (fun c => if c = a then b else c) := by
  intro hm
  obtain ⟨c, hc, hfc⟩ := List.mem_map.mp hm
  by_cases hca : c = a
  · rw [if_pos hca] at hfc
    exact hbd hfc.symm
  · rw [if_neg hca] at hfc
    exact hl (hfc ▸ hc)

theorem not_mem_map_single_self {a b : Char} (hab : b ≠ a) (l : List Char) :
    a ∉ l.map (fun c => if c = a then b else c) := by
  intro hm
  obtain ⟨c, _, hfc⟩ := List.mem_map.mp hm
  by_cases hca : c = a
  · rw [if_pos hca] at hfc
    exact hab hfc
  · rw [if_neg hca] at hfc
    exact hca hfc

/-- Restore of the escape stage on a second pass: on text in escaped form
(every `&` opening `&amp;`, `&lt;` or `&gt;`, no raw `<` or `>`), decoding
HTML entities and re-escaping `&`, `<`, `>` reproduces the text exactly. -/
theorem unescape_escape_id :
    ∀ t : List Char, ampOK t → '<' ∉ t → '>' ∉ t →
      (html_unescape t).flatMap escChar = t := by
  intro t
  induction t using list_length_ind with
  | h t ih =>
    cases t with
    | nil => intro _ _ _; rfl
    | cons c r =>
      intro hok hlt hgt
      have hltr : '<' ∉ r := fun hm => hlt (List.mem_cons_of_mem _ hm)
      have hgtr : '>' ∉ r := fun hm => hgt (List.mem_cons_of_mem _ hm)
      by_cases hc : c = '&'
      · subst hc
        rcases hok.1 rfl with h1 | h2 | h3
        · obtain ⟨r', hr'⟩ := isPrefixOf_ex h1
          have hfind : findEnt entityTable r = some ('&', (sData "amp;").length) := by
            simp only [entityTable]
            show (if (sData "amp;").isPrefixOf r then
              some ('&', (sData "amp;").length) else _) = _
            rw [if_pos h1]
          rw [html_unescape_amp r '&' _ hfind, hr', List.drop_left,
            List.flatMap_cons]
          have hlen : r'.length < ('&' :: r).length := by
            have h' : r.length = (sData "amp;").length + r'.length := by
              rw [hr', List.length_append]
            rw [show (sData "amp;").length = 4 from rfl] at h'
            simp only [List.length_cons]
            omega
          have hok' : ampOK r' :=
            ampOK_append_right _ _ (hr' ▸ hok.2)
          have hlt' : '<' ∉ r' := fun hm =>
            hltr (hr' ▸ List.mem_append_right _ hm)
          have hgt' : '>' ∉ r' := fun hm =>
            hgtr (hr' ▸ List.mem_append_right _ hm)
          rw [ih r' hlen hok' hlt' hgt']
          rfl
        · obtain ⟨r', hr'⟩ := isPrefixOf_ex h2
          subst hr'
          have hfind : findEnt entityTable (sData "lt;" ++ r')
              = some ('<', (sData "lt;").length) := by
            simp only [entityTable]
            show (if (sData "amp;").isPrefixOf (sData "lt;" ++ r') then _ else
              if (sData "lt;").isPrefixOf (sData "lt;" ++ r') then
                some ('<', (sData "lt;").length) else _) = _
            rw [show (sData "amp;").isPrefixOf (sData "lt;" ++ r') = false from rfl,
              if_pos (isPrefixOf_append_self _ _)]
            rfl
          rw [html_unescape_amp _ '<' _ hfind, List.drop_left,
            List.flatMap_cons]
          have hlen : r'.length < ('&' :: (sData "lt;" ++ r')).length := by
            simp only [List.length_cons, List.length_append,
              show (sData "lt;").length = 3 from rfl]
            omega
          have hok' : ampOK r' := ampOK_append_right _ _ hok.2
          have hlt' : '<' ∉ r' := fun hm =>
            hltr (List.mem_append_right _ hm)
          have hgt' : '>' ∉ r' := fun hm =>
            hgtr (List.mem_append_right _ hm)
          rw [ih r' hlen hok' hlt' hgt']
          rfl
        · obtain ⟨r', hr'⟩ := isPrefixOf_ex h3
          subst hr'
          have hfind : findEnt entityTable (sData "gt;" ++ r')
              = some ('>', (sData "gt;").length) := by
            simp only [entityTable]
            show (if (sData "amp;").isPrefixOf (sData "gt;" ++ r') then _ else
              if (sData "lt;").isPrefixOf (sData "gt;" ++ r') then _ else
              if (sData "gt;").isPrefixOf (sData "gt;" ++ r') then
                some ('>', (sData "gt;").length) else _) = _
            rw [show (sData "amp;").isPrefixOf (sData "gt;" ++ r') = false from rfl,
              show (sData "lt;").isPrefixOf (sData "gt;" ++ r') = false from rfl,
              if_pos (isPrefixOf_append_self _ _)]
            rfl
          rw [html_unescape_amp _ '>' _ hfind, List.drop_left,
            List.flatMap_cons]
          have hlen : r'.length < ('&' :: (sData "gt;" ++ r')).length := by
            simp only [List.length_cons, List.length_append,
              show (sData "gt;").length = 3 from rfl]
            omega
          have hok' : ampOK r' := ampOK_append_right _ _ hok.2
          have hlt' : '<' ∉ r' := fun hm =>
            hltr (List.mem_append_right _ hm)
          have hgt' : '>' ∉ r' := fun hm =>
            hgtr (List.mem_append_right _ hm)
          rw [ih r' hlen hok' hlt' hgt']
          rfl
      · rw [html_unescape_cons c r hc, List.flatMap_cons]
        have hc2 : c ≠ '<' := fun he => hlt (he ▸ List.mem_cons_self _ _)
        have hc3 : c ≠ '>' := fun he => hgt (he ▸ List.mem_cons_self _ _)
        rw [escChar, if_neg hc, if_neg hc2, if_neg hc3]
        rw [ih r (by simp) hok.2 hltr hgtr]
        rfl

/-- Structural invariants of outputs of `clean_text_for_pdf`: escaped form
(`ampOK`, no raw `<` or `>`), no curly quote, no triple backtick, and no
collapsible blank-line run. -/
structure CleanOut (t : List Char) : Prop where
  amp : ampOK t
  lt : '<' ∉ t
  gt : '>' ∉ t
  nrsq : rsq ∉ t
  nlsq : lsq ∉ t
  nldq : ldq ∉ t
  nrdq : rdq ∉ t
  nt : noT t
  nn : noNN t

/-- Every output of `clean_text_for_pdf` satisfies the invariants. -/
theorem clean_invariants (s : List Char) :
    CleanOut (clean_text_for_pdf s) := by
  rw [clean_unfold, esc3_eq_flatMap]
  simp only [pyReplace_single_map]
  generalize (html_unescape s) = u
  have hE_amp : ampOK (u.flatMap escChar) := ampOK_flatMap_escChar u
  have hE_lt : '<' ∉ u.flatMap escChar := not_mem_flatMap_escChar_lt u
  have hE_gt : '>' ∉ u.flatMap escChar := not_mem_flatMap_escChar_gt u
  generalize hEdef : u.flatMap escChar = E at hE_amp hE_lt hE_gt
  have hM_amp : ampOK ((((((E.map
      (fun c => if c = '"' then sqc else c)).map
      (fun c => if c = rsq then sqc else c)).map
      (fun c => if c = lsq then sqc else c)).map
      (fun c => if c = ldq then '"' else c)).map
      (fun c => if c = rdq then '"' else c))) := by
    apply ampOK_map_single (by decide) (by decide)
    apply ampOK_map_single (by decide) (by decide)
    apply ampOK_map_single (by decide) (by decide)
    apply ampOK_map_single (by decide) (by decide)
    apply ampOK_map_single (by decide) (by decide)
    exact hE_amp
  have hM_lt : '<' ∉ (((((E.map
      (fun c => if c = '"' then sqc else c)).map
      (fun c => if c = rsq then sqc else c)).map
      (fun c => if c = lsq then sqc else c)).map
      (fun c => if c = ldq then '"' else c)).map
      (fun c => if c = rdq then '"' else c)) := by
    apply not_mem_map_single (by decide)
    apply not_mem_map_single (by decide)
    apply not_mem_map_single (by decide)
    apply not_mem_map_single (by decide)
    apply not_mem_map_single (by decide)
    exact hE_lt
  have hM_gt : '>' ∉ (((((E.map
      (fun c => if c = '"' then sqc else c)).map
      (fun c => if c = rsq then sqc else c)).map
      (fun c => if c = lsq then sqc else c)).map
      (fun c => if c = ldq then '"' else c)).map
      (fun c => if c = rdq then '"' else c)) := by
    apply not_mem_map_single (by decide)
    apply not_mem_map_single (by decide)
    apply not_mem_map_single (by decide)
    apply not_mem_map_single (by decide)
    apply not_mem_map_single (by decide)
    exact hE_gt
  have hM_rsq : rsq ∉ (((((E.map
      (fun c => if c = '"' then sqc else c)).map
      (fun c => if c = rsq then sqc else c)).map
      (fun c => if c = lsq then sqc else c)).map
      (fun c => if c = ldq then '"' else c)).map
      (fun c => if c = rdq then '"' else c)) := by
    apply not_mem_map_single (by decide)
    apply not_mem_map_single (by decide)
    apply not_mem_map_single (by decide)
    exact not_mem_map_single_self (by decide) _
  have hM_lsq : lsq ∉ (((((E.map
      (fun c => if c = '"' then sqc else c)).map
      (fun c => if c = rsq then sqc else c)).map
      (fun c => if c = lsq then sqc else c)).map
      (fun c => if c = ldq then '"' else c)).map
      (fun c => if c = rdq then '"' else c)) := by
    apply not_mem_map_single (by decide)
    apply not_mem_map_single (by decide)
    exact not_mem_map_single_self (by decide) _
  have hM_ldq : ldq ∉ (((((E.map
      (fun c => if c = '"' then sqc else c)).map
      (fun c => if c = rsq then sqc else c)).map
      (fun c => if c = lsq then sqc else c)).map
      (fun c => if c = ldq then '"' else c)).map
      (fun c => if c = rdq then '"' else c)) := by
    apply not_mem_map_single (by decide)
    exact not_mem_map_single_self (by decide) _
  have hM_rdq : rdq ∉ (((((E.map
      (fun c => if c = '"' then sqc else c)).map
      (fun c => if c = rsq then sqc else c)).map
      (fun c => if c = lsq then sqc else c)).map
      (fun c => if c = ldq then '"' else c)).map
      (fun c => if c = rdq then '"' else c)) :=
    not_mem_map_single_self (by decide) _
  generalize hMdef : (((((E.map
      (fun c => if c = '"' then sqc else c)).map
      (fun c => if c = rsq then sqc else c)).map
      (fun c => if c = lsq then sqc else c)).map
      (fun c => if c = ldq then '"' else c)).map
      (fun c => if c = rdq then '"' else c)) = M
    at hM_amp hM_lt hM_gt hM_rsq hM_lsq hM_ldq hM_rdq
  have hB : ∀ d : Char, d ∉ M → d ∉ pyReplace bq3 [] M := by
    intro d hd hm
    rcases mem_pyReplace bq3 [] M hm with h1 | h2
    · exact hd h1
    · simp at h2
  refine ⟨?_, ?_, ?_, ?_, ?_, ?_, ?_, ?_, ?_⟩
  · exact ampOK_cnl _ false [] (ampOK_pyReplace_bq3 M hM_amp) (by simp)
  · exact fun hm => hB '<' hM_lt (mem_collapseNL hm)
  · exact fun hm => hB '>' hM_gt (mem_collapseNL hm)
  · exact fun hm => hB rsq hM_rsq (mem_collapseNL hm)
  · exact fun hm => hB lsq hM_lsq (mem_collapseNL hm)
  · exact fun hm => hB ldq hM_ldq (mem_collapseNL hm)
  · exact fun hm => hB rdq hM_rdq (mem_collapseNL hm)
  · exact noT_cnl _ false [] (noT_pyReplace_bq3 M) (by simp)
  · exact noNN_collapseNL _

/-- On text satisfying the output invariants of `clean_text_for_pdf` and
containing no straight double quote, the cleaning pipeline is the
identity. -/
theorem clean_idem_aux (t : List Char)
    (hamp : ampOK t) (hlt : '<' ∉ t) (hgt : '>' ∉ t)
    (hrsq : rsq ∉ t) (hlsq : lsq ∉ t) (hldq : ldq ∉ t) (hrdq : rdq ∉ t)
    (hnt : noT t) (hnn : noNN t) (hdq : '"' ∉ t) :
    clean_text_for_pdf t = t := by
  rw [clean_unfold, esc3_eq_flatMap, unescape_escape_id t hamp hlt hgt]
  rw [pyReplace_id_of_not_mem [sqc] (show ('"' : Char) ∈ ['"'] by simp) t hdq]
  rw [pyReplace_id_of_not_mem [sqc] (show rsq ∈ [rsq] by simp) t hrsq]
  rw [pyReplace_id_of_not_mem [sqc] (show lsq ∈ [lsq] by simp) t hlsq]
  rw [pyReplace_id_of_not_mem ['"'] (show ldq ∈ [ldq] by simp) t hldq]
  rw [pyReplace_id_of_not_mem ['"'] (show rdq ∈ [rdq] by simp) t hrdq]
  rw [noT_pyReplace_id t hnt, collapseNL_fixed hnn]


/-- C1, counterexample: the claim "clean(clean(s)) = clean(s) for every
string s" is false at the concrete one-character input consisting of a left
curly double quote U+201C: the first application normalizes it to a straight
double quote, and the second application (line 22 of the source) turns that
straight double quote into a single quote. -/
theorem C1_counterexample :
    clean_text_for_pdf (clean_text_for_pdf [ldq]) ≠ clean_text_for_pdf [ldq] := by
  decide

/-- C1 (amended): text cleaning is idempotent on every input whose cleaned
form contains no straight double quote — that is, on every input in which no
curly double quote (and no entity decoding to one) survives; for such inputs,
escaped markup characters, normalized single quotes, stripped backticks and
collapsed blank lines are all stable under a second application.  (The sole
failure mode is the one the counterexample exhibits: a curly double quote is
normalized to a straight double quote, which a second pass rewrites to a
single quote.) -/
theorem C1_clean_idempotent (s : List Char)
    (h : '"' ∉ clean_text_for_pdf s) :
    clean_text_for_pdf (clean_text_for_pdf s) = clean_text_for_pdf s := by
  have hinv := clean_invariants s
  exact clean_idem_aux (clean_text_for_pdf s) hinv.amp hinv.lt hinv.gt
    hinv.nrsq hinv.nlsq hinv.nldq hinv.nrdq hinv.nt hinv.nn h

/-- Witness for C1: a concrete input with HTML markup, an ampersand, curly
single quotes and a blank-line run, on which the hypothesis holds and
cleaning is idempotent. -/
theorem C1_witness :
    ('"' : Char) ∉ clean_text_for_pdf (sData "R&D <tag> ’q‘\n\nnext") ∧
      clean_text_for_pdf (clean_text_for_pdf (sData "R&D <tag> ’q‘\n\nnext"))
        = clean_text_for_pdf (sData "R&D <tag> ’q‘\n\nnext") :=
  ⟨by decide, C1_clean_idempotent (sData "R&D <tag> ’q‘\n\nnext") (by decide)⟩

theorem countC_pyReplace_ne_ne {a b c : Char} (hca : c ≠ a) (hbc : b ≠ c)
    (l : List Char) : countC c (pyReplace [a] [b] l) = countC c l := by
  rw [pyReplace_single, countC_flatMap_single a c [b] hca]
  have : countC c [b] = 0 := by simp [countC, hbc]
  rw [this]
  ring

theorem countC_pyReplace_ne_eq {a b : Char} (hba : b ≠ a) (l : List Char) :
    countC b (pyReplace [a] [b] l) = countC b l + countC a l := by
  rw [pyReplace_single, countC_flatMap_single a b [b] hba]
  have : countC b [b] = 1 := by simp [countC]
  rw [this]
  ring

theorem countC_pyReplace_self {a b : Char} (hba : b ≠ a) (l : List Char) :
    countC a (pyReplace [a] [b] l) = 0 := by
  rw [pyReplace_single, countC_flatMap_single_self a [b] l]
  have : countC a [b] = 0 := by simp [countC, hba]
  rw [this]
  ring

theorem countC_flatMap_escChar {c : Char} (h1 : c ≠ '&') (h2 : c ≠ '<')
    (h3 : c ≠ '>') (ha : countC c ampEnt = 0) (hl : countC c ltEnt = 0)
    (hg : countC c gtEnt = 0) :
    ∀ m : List Char, countC c (m.flatMap escChar) = countC c m := by
  intro m
  induction m with
  | nil => rfl
  | cons x r ih =>
    rw [List.flatMap_cons, countC_append, ih]
    by_cases hx1 : x = '&'
    · subst hx1
      rw [escChar, if_pos rfl, ha]
      simp [countC, Ne.symm h1]
    · by_cases hx2 : x = '<'
      · subst hx2
        rw [escChar, if_neg hx1, if_pos rfl, hl]
        simp [countC, Ne.symm h2]
      · by_cases hx3 : x = '>'
        · subst hx3
          rw [escChar, if_neg hx1, if_neg hx2, if_pos rfl, hg]
          simp [countC, Ne.symm h3]
        · rw [escChar, if_neg hx1, if_neg hx2, if_neg hx3]
          simp [countC]

theorem countC_pyReplace_bq3 {c : Char} (hc : c ≠ bq) :
    ∀ l : List Char, countC c (pyReplace bq3 [] l) = countC c l := by
  intro l
  induction l using list_length_ind with
  | h l ih =>
    cases l with
    | nil => rfl
    | cons x r =>
      by_cases hpfx : bq3.isPrefixOf (x :: r) = true
      · obtain ⟨rest, hrest⟩ := isPrefixOf_ex hpfx
        rw [pyReplace_pos _ _ _ _ (by decide) hpfx, List.nil_append]
        have hdrop : (x :: r).drop (bq3 : List Char).length = rest := by
          rw [hrest]
          exact List.drop_left _ _
        rw [hdrop]
        have hlen : rest.length < (x :: r).length := by
          have h' : (x :: r).length = (bq3 : List Char).length + rest.length := by
            rw [hrest, List.length_append]
          rw [show (bq3 : List Char).length = 3 from rfl] at h'
          omega
        rw [ih rest hlen, hrest, countC_append]
        have hz : countC c bq3 = 0 := by
          simp [countC, bq3, Ne.symm hc]
        rw [hz, Nat.zero_add]
      · rw [pyReplace_neg _ _ _ _ (fun hand => hpfx hand.2)]
        simp only [countC, ih r (by simp)]

/-- C9: `clean_text_for_pdf` replaces every straight double quote by a
single quote (line 22), and it does so before the curly double quotes are
normalized to straight double quotes (lines 25-26).  Consequently, in the
output the straight double quotes are exactly the curly double quotes of the
(entity-decoded) input, while the input's straight double quotes have all
become single quotes: the count of `"` in the output equals the number of
curly double quotes after decoding, and the count of `'` in the output is
the decoded input's count of `'` plus its counts of `"` and of both curly
single quotes. -/
theorem C9_quote_order (s : List Char) :
    countC '"' (clean_text_for_pdf s)
        = countC ldq (html_unescape s) + countC rdq (html_unescape s) ∧
      countC sqc (clean_text_for_pdf s)
        = countC sqc (html_unescape s) + countC '"' (html_unescape s)
          + countC lsq (html_unescape s) + countC rsq (html_unescape s) := by
  rw [clean_unfold, esc3_eq_flatMap]
  generalize html_unescape s = u
  have hE_dq : countC '"' (u.flatMap escChar) = countC '"' u :=
    countC_flatMap_escChar (by decide) (by decide) (by decide)
      (by decide) (by decide) (by decide) u
  have hE_sq : countC sqc (u.flatMap escChar) = countC sqc u :=
    countC_flatMap_escChar (by decide) (by decide) (by decide)
      (by decide) (by decide) (by decide) u
  have hE_lsq : countC lsq (u.flatMap escChar) = countC lsq u :=
    countC_flatMap_escChar (by decide) (by decide) (by decide)
      (by decide) (by decide) (by decide) u
  have hE_rsq : countC rsq (u.flatMap escChar) = countC rsq u :=
    countC_flatMap_escChar (by decide) (by decide) (by decide)
      (by decide) (by decide) (by decide) u
  have hE_ldq : countC ldq (u.flatMap escChar) = countC ldq u :=
    countC_flatMap_escChar (by decide) (by decide) (by decide)
      (by decide) (by decide) (by decide) u
  have hE_rdq : countC rdq (u.flatMap escChar) = countC rdq u :=
    countC_flatMap_escChar (by decide) (by decide) (by decide)
      (by decide) (by decide) (by decide) u
  generalize hE : u.flatMap escChar = E at hE_dq hE_sq hE_lsq hE_rsq hE_ldq hE_rdq
  have h1_dq : countC '"' (pyReplace ['"'] [sqc] E) = 0 :=
    countC_pyReplace_self (by decide) E
  have h1_sq : countC sqc (pyReplace ['"'] [sqc] E) = countC sqc u + countC '"' u := by
    rw [countC_pyReplace_ne_eq (by decide) E, hE_sq, hE_dq]
  have h1_lsq : countC lsq (pyReplace ['"'] [sqc] E) = countC lsq u := by
    rw [countC_pyReplace_ne_ne (by decide) (by decide) E, hE_lsq]
  have h1_rsq : countC rsq (pyReplace ['"'] [sqc] E) = countC rsq u := by
    rw [countC_pyReplace_ne_ne (by decide) (by decide) E, hE_rsq]
  have h1_ldq : countC ldq (pyReplace ['"'] [sqc] E) = countC ldq u := by
    rw [countC_pyReplace_ne_ne (by decide) (by decide) E, hE_ldq]
  have h1_rdq : countC rdq (pyReplace ['"'] [sqc] E) = countC rdq u := by
    rw [countC_pyReplace_ne_ne (by decide) (by decide) E, hE_rdq]
  generalize hX1 : pyReplace ['"'] [sqc] E = X1
    at h1_dq h1_sq h1_lsq h1_rsq h1_ldq h1_rdq
  have h2_dq : countC '"' (pyReplace [rsq] [sqc] X1) = 0 := by
    rw [countC_pyReplace_ne_ne (by decide) (by decide) X1, h1_dq]
  have h2_sq : countC sqc (pyReplace [rsq] [sqc] X1)
      = countC sqc u + countC '"' u + countC rsq u := by
    rw [countC_pyReplace_ne_eq (by decide) X1, h1_sq, h1_rsq]
  have h2_lsq : countC lsq (pyReplace [rsq] [sqc] X1) = countC lsq u := by
    rw [countC_pyReplace_ne_ne (by decide) (by decide) X1, h1_lsq]
  have h2_ldq : countC ldq (pyReplace [rsq] [sqc] X1) = countC ldq u := by
    rw [countC_pyReplace_ne_ne (by decide) (by decide) X1, h1_ldq]
  have h2_rdq : countC rdq (pyReplace [rsq] [sqc] X1) = countC rdq u := by
    rw [countC_pyReplace_ne_ne (by decide) (by decide) X1, h1_rdq]
  generalize hX2 : pyReplace [rsq] [sqc] X1 = X2
    at h2_dq h2_sq h2_lsq h2_ldq h2_rdq
  have h3_dq : countC '"' (pyReplace [lsq] [sqc] X2) = 0 := by
    rw [countC_pyReplace_ne_ne (by decide) (by decide) X2, h2_dq]
  have h3_sq : countC sqc (pyReplace [lsq] [sqc] X2)
      = countC sqc u + countC '"' u + countC rsq u + countC lsq u := by
    rw [countC_pyReplace_ne_eq (by decide) X2, h2_sq, h2_lsq]
  have h3_ldq : countC ldq (pyReplace [lsq] [sqc] X2) = countC ldq u := by
    rw [countC_pyReplace_ne_ne (by decide) (by decide) X2, h2_ldq]
  have h3_rdq : countC rdq (pyReplace [lsq] [sqc] X2) = countC rdq u := by
    rw [countC_pyReplace_ne_ne (by decide) (by decide) X2, h2_rdq]
  generalize hX3 : pyReplace [lsq] [sqc] X2 = X3 at h3_dq h3_sq h3_ldq h3_rdq
  have h4_dq : countC '"' (pyReplace [ldq] ['"'] X3) = countC ldq u := by
    rw [countC_pyReplace_ne_eq (by decide) X3, h3_dq, h3_ldq, Nat.zero_add]
  have h4_sq : countC sqc (pyReplace [ldq] ['"'] X3)
      = countC sqc u + countC '"' u + countC rsq u + countC lsq u := by
    rw [countC_pyReplace_ne_ne (by decide) (by decide) X3, h3_sq]
  have h4_rdq : countC rdq (pyReplace [ldq] ['"'] X3) = countC rdq u := by
    rw [countC_pyReplace_ne_ne (by decide) (by decide) X3, h3_rdq]
  generalize hX4 : pyReplace [ldq] ['"'] X3 = X4 at h4_dq h4_sq h4_rdq
  have h5_dq : countC '"' (pyReplace [rdq] ['"'] X4)
      = countC ldq u + countC rdq u := by
    rw [countC_pyReplace_ne_eq (by decide) X4, h4_dq, h4_rdq]
  have h5_sq : countC sqc (pyReplace [rdq] ['"'] X4)
      = countC sqc u + countC '"' u + countC rsq u + countC lsq u := by
    rw [countC_pyReplace_ne_ne (by decide) (by decide) X4, h4_sq]
  generalize hX5 : pyReplace [rdq] ['"'] X4 = X5 at h5_dq h5_sq
  constructor
  · rw [countC_collapseNL (by decide), countC_pyReplace_bq3 (by decide), h5_dq]
  · rw [countC_collapseNL (by decide), countC_pyReplace_bq3 (by decide), h5_sq]
    omega

/-- The regex token class `[a-zA-Z0-9-]` from lines 35-36 of the source. -/
def isTokenChar (c : Char) : Bool :=
  ('a' ≤ c && c ≤ 'z') || ('A' ≤ c && c ≤ 'Z') || ('0' ≤ c && c ≤ '9') || c = '-'

/-- `[a-zA-Z0-9-]+` : one or more token characters. -/
def tokenOk (tok : List Char) : Bool :=
  !tok.isEmpty && tok.all isTokenChar

/-- `dropPfx p l` strips the literal prefix `p` from `l`, returning the
remainder, or `none` when `p` is not a prefix of `l`. -/
def dropPfx : List Char → List Char → Option (List Char)
  | [], l => some l
  | _ :: _, [] => none
  | p :: ps, c :: cs => if c = p then dropPfx ps cs else none

theorem dropPfx_iff {p : List Char} :
    ∀ l r : List Char, dropPfx p l = some r ↔ l = p ++ r := by
  induction p with
  | nil =>
    intro l r
    constructor
    · intro h
      simpa [dropPfx] using h
    · intro h
      simp [dropPfx, h]
  | cons a ps ih =>
    intro l r
    cases l with
    | nil =>
      constructor
      · intro h; simp [dropPfx] at h
      · intro h; simp at h
    | cons c cs =>
      by_cases hca : c = a
      · subst hca
        constructor
        · intro h
          rw [show dropPfx (c :: ps) (c :: cs) = dropPfx ps cs by
            simp [dropPfx]] at h
          rw [List.cons_append]
          exact congrArg (fun t => c :: t) ((ih cs r).mp h)
        · intro h
          rw [List.cons_append] at h
          have h2 : cs = ps ++ r := (List.cons.injEq _ _ _ _).mp h |>.2
          rw [show dropPfx (c :: ps) (c :: cs) = dropPfx ps cs by
            simp [dropPfx]]
          exact (ih cs r).mpr h2
      · constructor
        · intro h
          rw [show dropPfx (a :: ps) (c :: cs) = none by
            simp [dropPfx, hca]] at h
          simp at h
        · intro h
          rw [List.cons_append] at h
          exact absurd ((List.cons.injEq _ _ _ _).mp h).1 hca

/-- The optional `s` of `https?` (line 35-36): after `http`, an `s` is
consumed when present.  Matching is deterministic here: if the next
character is `s`, the regex alternative that skips the `s` would require the
following literal `://` to begin with `s`, which is impossible, so consuming
the `s` is the only way a match can proceed. -/
def stripScheme (l : List Char) : List Char :=
  match l with
  | c :: rest => if c = 's' then rest else c :: rest
  | [] => []

/-- Truth of `re.match(r'^https?:\/\/<host>\/share\/[a-zA-Z0-9-]+$', url)`
for a literal `host` (lines 34-40 of the source).  `^` and `$` anchor the
whole string: the code applies this after `strip()`, so the Python corner
case of `$` matching before a trailing newline cannot arise. -/
def matchesSharePattern (host url : List Char) : Bool :=
  match dropPfx (sData "http") url with
  | none => false
  | some r1 =>
    match dropPfx (sData "://" ++ host ++ sData "/share/") (stripScheme r1) with
    | none => false
    | some tok => tokenOk tok

/-- Python's substring test `'chatgpt.com' in url` (line 41). -/
def containsSub (sub : List Char) : List Char → Bool
  | [] => sub.isPrefixOf []
  | c :: r => sub.isPrefixOf (c :: r) || containsSub sub r

/-- Models `validate_chat_url` (source lines 31-44): strip whitespace, try
the two anchored patterns (the loop bodies for the two patterns are
identical, so the loop is equivalent to the disjunction of the two matches);
on a match, if the string contains `chatgpt.com`, return it with every
occurrence of `chatgpt.com` replaced by `chat.openai.com`, else return it
unchanged; on no match return `None`. -/
def validate_chat_url (url : List Char) : Option (List Char) :=
  let u := pyStrip url
  if matchesSharePattern (sData "chat.openai.com") u
      || matchesSharePattern (sData "chatgpt.com") u then
    if containsSub (sData "chatgpt.com") u then
      some (pyReplace (sData "chatgpt.com") (sData "chat.openai.com") u)
    else
      some u
  else
    none

/-- Correctness of the pattern matcher: it accepts exactly the strings of
shape `http` + optional `s` + `://` + host + `/share/` + nonempty token of
`[a-zA-Z0-9-]`. -/
theorem matchesSharePattern_iff (host url : List Char) :
    matchesSharePattern host url = true ↔
      ∃ sOpt tok : List Char, (sOpt = [] ∨ sOpt = ['s']) ∧ tokenOk tok = true ∧
        url = sData "http" ++ sOpt ++ sData "://" ++ host ++ sData "/share/" ++ tok := by
  constructor
  · intro h
    cases h1 : dropPfx (sData "http") url with
    | none =>
      simp only [matchesSharePattern, h1] at h
      exact absurd h (by simp)
    | some r1 =>
      simp only [matchesSharePattern, h1] at h
      cases h2 : dropPfx (sData "://" ++ host ++ sData "/share/") (stripScheme r1) with
      | none =>
        simp only [h2] at h
        exact absurd h (by simp)
      | some tok =>
        simp only [h2] at h
        have hurl : url = sData "http" ++ r1 := (dropPfx_iff url r1).mp h1
        have hrest : stripScheme r1 = (sData "://" ++ host ++ sData "/share/") ++ tok :=
          (dropPfx_iff _ tok).mp h2
        cases r1 with
        | nil =>
          rw [show stripScheme [] = [] from rfl] at hrest
          have : ((sData "://" ++ host ++ sData "/share/") ++ tok) ≠ [] := by
            rw [show sData "://" ++ host ++ sData "/share/" ++ tok
              = ':' :: (sData "//" ++ host ++ sData "/share/" ++ tok) by
                simp [sData, List.append_assoc]]
            simp
          exact absurd hrest.symm (by simpa using this)
        | cons c rest =>
          by_cases hcs : c = 's'
          · subst hcs
            rw [show stripScheme ('s' :: rest) = rest by simp [stripScheme]] at hrest
            refine ⟨['s'], tok, Or.inr rfl, h, ?_⟩
            rw [hurl, hrest]
            simp [List.append_assoc]
          · rw [show stripScheme (c :: rest) = c :: rest by
              simp [stripScheme, hcs]] at hrest
            refine ⟨[], tok, Or.inl rfl, h, ?_⟩
            rw [hurl, hrest]
            simp [List.append_assoc]
  · rintro ⟨sOpt, tok, hs, htok, hurl⟩
    rcases hs with hs | hs
    · subst hs
      rw [List.append_nil] at hurl
      have h1 : dropPfx (sData "http") url
          = some (sData "://" ++ host ++ sData "/share/" ++ tok) := by
        rw [dropPfx_iff, hurl]
        simp [List.append_assoc]
      have hcolon : sData "://" ++ host ++ sData "/share/" ++ tok
          = ':' :: (sData "//" ++ host ++ sData "/share/" ++ tok) := by
        simp [sData, List.append_assoc]
      have h2 : stripScheme (sData "://" ++ host ++ sData "/share/" ++ tok)
          = (sData "://" ++ host ++ sData "/share/") ++ tok := by
        rw [hcolon, show stripScheme (':' :: (sData "//" ++ host ++ sData "/share/" ++ tok))
          = ':' :: (sData "//" ++ host ++ sData "/share/" ++ tok) by
            simp [stripScheme]]
      have h3 : dropPfx (sData "://" ++ host ++ sData "/share/")
          (stripScheme (sData "://" ++ host ++ sData "/share/" ++ tok)) = some tok := by
        rw [h2, dropPfx_iff]
      simp only [matchesSharePattern, h1, h3]
      exact htok
    · subst hs
      have h1 : dropPfx (sData "http") url
          = some ('s' :: (sData "://" ++ host ++ sData "/share/" ++ tok)) := by
        rw [dropPfx_iff, hurl]
        simp [List.append_assoc]
      have h2 : stripScheme ('s' :: (sData "://" ++ host ++ sData "/share/" ++ tok))
          = (sData "://" ++ host ++ sData "/share/") ++ tok := by
        rw [show stripScheme ('s' :: (sData "://" ++ host ++ sData "/share/" ++ tok))
          = sData "://" ++ host ++ sData "/share/" ++ tok by simp [stripScheme]]
      have h3 : dropPfx (sData "://" ++ host ++ sData "/share/")
          (stripScheme ('s' :: (sData "://" ++ host ++ sData "/share/" ++ tok)))
          = some tok := by
        rw [h2, dropPfx_iff]
      simp only [matchesSharePattern, h1, h3]
      exact htok

theorem containsSub_of_prefix {sub l : List Char}
    (h : sub.isPrefixOf l = true) : containsSub sub l = true := by
  cases l with
  | nil => exact h
  | cons c r => simp [containsSub, h]

theorem containsSub_mid (sub : List Char) :
    ∀ pre suf : List Char, containsSub sub (pre ++ (sub ++ suf)) = true := by
  intro pre
  induction pre with
  | nil =>
    intro suf
    exact containsSub_of_prefix (isPrefixOf_append_self _ _)
  | cons c pre ih =>
    intro suf
    rw [List.cons_append]
    simp [containsSub, ih suf]

theorem containsSub_token :
    ∀ tok : List Char, (∀ x ∈ tok, isTokenChar x = true) →
      containsSub (sData "chatgpt.com") tok = false := by
  intro tok
  induction tok with
  | nil => intro _; rfl
  | cons x r ih =>
    intro h
    cases hpx : (sData "chatgpt.com").isPrefixOf (x :: r) with
    | true =>
      have hdot : ('.' : Char) ∈ x :: r :=
        isPrefixOf_mem hpx (by decide)
      have := h '.' hdot
      exact absurd this (by decide)
    | false =>
      simp [containsSub, hpx]
      exact ih (fun y hy => h y (List.mem_cons_of_mem _ hy))

theorem chatgpt_replace_skip :
    ∀ a l : List Char, (∀ x ∈ a, x ≠ 'c') →
      pyReplace (sData "chatgpt.com") (sData "chat.openai.com") (a ++ l)
        = a ++ pyReplace (sData "chatgpt.com") (sData "chat.openai.com") l := by
  intro a
  induction a with
  | nil => intro l _; rfl
  | cons x a ih =>
    intro l hx
    rw [List.cons_append]
    have hnp : ¬ ((sData "chatgpt.com" : List Char) ≠ [] ∧
        (sData "chatgpt.com").isPrefixOf (x :: (a ++ l)) = true) := by
      rintro ⟨-, hp⟩
      have : ('c' : Char) = x := by
        have h2 := hp
        rw [show (sData "chatgpt.com" : List Char)
          = 'c' :: sData "hatgpt.com" from rfl] at h2
        simp only [List.isPrefixOf, Bool.and_eq_true, beq_iff_eq] at h2
        exact h2.1
      exact hx x (List.mem_cons_self _ _) this.symm
    rw [pyReplace_neg _ _ _ _ hnp]
    rw [ih l (fun y hy => hx y (List.mem_cons_of_mem _ hy))]
    rfl

theorem chatgpt_replace_token :
    ∀ l : List Char, (∀ x ∈ l, isTokenChar x = true) →
      pyReplace (sData "chatgpt.com") (sData "chat.openai.com") l = l := by
  intro l hl
  refine pyReplace_id_of_not_mem _ (show ('.' : Char) ∈ sData "chatgpt.com" by decide) l ?_
  intro hm
  exact absurd (hl '.' hm) (by decide)

theorem chatgpt_replace_url (tok : List Char)
    (htok : ∀ x ∈ tok, isTokenChar x = true) :
    pyReplace (sData "chatgpt.com") (sData "chat.openai.com")
        (sData "https://chatgpt.com/share/" ++ tok)
      = sData "https://chat.openai.com/share/" ++ tok := by
  have hstep : pyReplace (sData "chatgpt.com") (sData "chat.openai.com")
      (sData "chatgpt.com" ++ (sData "/share/" ++ tok))
      = sData "chat.openai.com" ++ (sData "/share/" ++ tok) := by
    have h2 : sData "chatgpt.com" ++ (sData "/share/" ++ tok)
        = 'c' :: (sData "hatgpt.com" ++ (sData "/share/" ++ tok)) := rfl
    have hpfx : (sData "chatgpt.com").isPrefixOf
        ('c' :: (sData "hatgpt.com" ++ (sData "/share/" ++ tok))) = true := by
      rw [← h2]
      exact isPrefixOf_append_self _ _
    rw [h2, pyReplace_pos _ _ _ _ (by decide) hpfx]
    have hdrop : List.drop (sData "chatgpt.com").length
        ('c' :: (sData "hatgpt.com" ++ (sData "/share/" ++ tok)))
        = sData "/share/" ++ tok := by
      rw [← h2]
      exact List.drop_left _ _
    rw [hdrop, chatgpt_replace_skip _ _ (by decide), chatgpt_replace_token tok htok]
  have h1 : sData "https://chatgpt.com/share/" ++ tok
      = sData "https://" ++ (sData "chatgpt.com" ++ (sData "/share/" ++ tok)) := rfl
  rw [h1, chatgpt_replace_skip _ _ (by decide), hstep]
  rfl

theorem containsSub_openai_url (tok : List Char)
    (htok : ∀ x ∈ tok, isTokenChar x = true) :
    containsSub (sData "chatgpt.com")
      (sData "https://chat.openai.com/share/" ++ tok) = false := by
  have hexp : sData "https://chat.openai.com/share/" ++ tok
      = 'h' :: 't' :: 't' :: 'p' :: 's' :: ':' :: '/' :: '/' :: 'c' :: 'h' ::
        'a' :: 't' :: '.' :: 'o' :: 'p' :: 'e' :: 'n' :: 'a' :: 'i' :: '.' ::
        'c' :: 'o' :: 'm' :: '/' :: 's' :: 'h' :: 'a' :: 'r' :: 'e' :: '/' ::
        tok := rfl
  rw [hexp]
  simp [containsSub, List.isPrefixOf, containsSub_token tok htok]

/-- Modelled from the spec (§4.1, §8): the two accepted shapes exactly as
the claim states them — `https://chat.openai.com/share/<token>` and
`https://chatgpt.com/share/<token>` with `<token>` one-or-more characters
from `[a-zA-Z0-9-]`.  This is the claim's (spec-side) acceptance predicate,
used to compare with what `validate_chat_url` actually accepts. -/
def spec_https_shape (url : List Char) : Bool :=
  (match dropPfx (sData "https://chat.openai.com/share/") url with
   | some tok => tokenOk tok
   | none => false)
  ||
  (match dropPfx (sData "https://chatgpt.com/share/") url with
   | some tok => tokenOk tok
   | none => false)

/-- C2, counterexample: `http://chat.openai.com/share/abc` matches neither
of the two accepted `https` shapes of the claim, yet the Validator does not
return the "invalid" signal for it: the source regexes read `https?`, so the
plain-`http` form is accepted and returned unchanged. -/
theorem C2_counterexample :
    spec_https_shape (pyStrip (sData "http://chat.openai.com/share/abc")) = false ∧
      validate_chat_url (sData "http://chat.openai.com/share/abc")
        = some (sData "http://chat.openai.com/share/abc") := by
  decide

/-- C2 (amended): the code's patterns use `https?`, so both the `http` and
`https` schemes are accepted for the two hosts, contrary to the claim's
https-only reading; for every input string that, after trimming, is not of
the form `http` + optional `s` + `://` + host + `/share/` + token with host
one of `chat.openai.com`, `chatgpt.com` and token one-or-more characters
from `[a-zA-Z0-9-]` — including the empty string, strings with extra path
segments, and malformed tokens — the Validator returns the explicit
"invalid" signal `None`. -/
theorem C2_invalid_rejected (url : List Char)
    (h : ¬ ∃ host sOpt tok : List Char,
        (host = sData "chat.openai.com" ∨ host = sData "chatgpt.com") ∧
        (sOpt = [] ∨ sOpt = ['s']) ∧ tokenOk tok = true ∧
        pyStrip url = sData "http" ++ sOpt ++ sData "://" ++ host
          ++ sData "/share/" ++ tok) :
    validate_chat_url url = none := by
  have h1 : matchesSharePattern (sData "chat.openai.com") (pyStrip url) = false := by
    rw [Bool.eq_false_iff]
    intro htrue
    obtain ⟨sOpt, tok, hs, ht, he⟩ := (matchesSharePattern_iff _ _).mp htrue
    exact h ⟨sData "chat.openai.com", sOpt, tok, Or.inl rfl, hs, ht, he⟩
  have h2 : matchesSharePattern (sData "chatgpt.com") (pyStrip url) = false := by
    rw [Bool.eq_false_iff]
    intro htrue
    obtain ⟨sOpt, tok, hs, ht, he⟩ := (matchesSharePattern_iff _ _).mp htrue
    exact h ⟨sData "chatgpt.com", sOpt, tok, Or.inr rfl, hs, ht, he⟩
  simp [validate_chat_url, h1, h2]

/-- Witness for C2: a link with an invalid token character is rejected. -/
theorem C2_witness :
    validate_chat_url (sData "https://chatgpt.com/share/abc!") = none := by
  refine C2_invalid_rejected _ ?_
  rintro ⟨host, sOpt, tok, hhost, hs, ht, he⟩
  have hm : matchesSharePattern host
      (pyStrip (sData "https://chatgpt.com/share/abc!")) = true :=
    (matchesSharePattern_iff _ _).mpr ⟨sOpt, tok, hs, ht, he⟩
  rcases hhost with hh | hh
  · subst hh
    exact absurd hm (by decide)
  · subst hh
    exact absurd hm (by decide)

/-- C4: for every input whose trimmed form is a valid
`https://chatgpt.com/share/<token>` link, the Validator returns the link
with only the host rewritten to `chat.openai.com` (path and token
unchanged); for every input whose trimmed form is a valid
`https://chat.openai.com/share/<token>` link, it returns the trimmed input
unchanged. -/
theorem C4_host_rewrite (url tok : List Char) (htok : tokenOk tok = true) :
    (pyStrip url = sData "https://chatgpt.com/share/" ++ tok →
      validate_chat_url url = some (sData "https://chat.openai.com/share/" ++ tok)) ∧
    (pyStrip url = sData "https://chat.openai.com/share/" ++ tok →
      validate_chat_url url = some (pyStrip url)) := by
  have htok' : ∀ x ∈ tok, isTokenChar x = true := by
    have h2 := htok
    rw [tokenOk, Bool.and_eq_true] at h2
    exact fun x hx => List.all_eq_true.mp h2.2 x hx
  constructor
  · intro he
    have hm2 : matchesSharePattern (sData "chatgpt.com") (pyStrip url) = true := by
      rw [matchesSharePattern_iff]
      refine ⟨['s'], tok, Or.inr rfl, htok, ?_⟩
      rw [he]
      exact rfl
    have hsub : containsSub (sData "chatgpt.com") (pyStrip url) = true := by
      rw [he, show sData "https://chatgpt.com/share/" ++ tok
        = sData "https://" ++ (sData "chatgpt.com" ++ (sData "/share/" ++ tok))
        from rfl]
      exact containsSub_mid _ _ _
    simp only [validate_chat_url, hm2, Bool.or_true, hsub, if_true]
    rw [he, chatgpt_replace_url tok htok']
  · intro he
    have hm1 : matchesSharePattern (sData "chat.openai.com") (pyStrip url) = true := by
      rw [matchesSharePattern_iff]
      refine ⟨['s'], tok, Or.inr rfl, htok, ?_⟩
      rw [he]
      exact rfl
    have hsub : containsSub (sData "chatgpt.com") (pyStrip url) = false := by
      rw [he]
      exact containsSub_openai_url tok htok'
    simp only [validate_chat_url, hm1, Bool.true_or, hsub, if_true]
    simp

/-- Witness for C4: both branches at concrete links. -/
theorem C4_witness :
    validate_chat_url (sData "  https://chatgpt.com/share/abc-123  ")
        = some (sData "https://chat.openai.com/share/abc-123") ∧
      validate_chat_url (sData "https://chat.openai.com/share/xyz")
        = some (pyStrip (sData "https://chat.openai.com/share/xyz")) :=
  ⟨(C4_host_rewrite (sData "  https://chatgpt.com/share/abc-123  ")
      (sData "abc-123") (by decide)).1 (by decide),
   (C4_host_rewrite (sData "https://chat.openai.com/share/xyz")
      (sData "xyz") (by decide)).2 (by decide)⟩

/-- The named paragraph styles defined in `create_pdf` (source lines 51-78).
The numeric/visual parameters (font sizes, colors, spacing) are presentation
data carried by the style objects; the claims concern only which style each
block uses, so styles are modelled by name. -/
inductive StyleName
  | customTitle
  | customHeading
  | customContent
  | metadataStyle
deriving DecidableEq

/-- A flowable block appended to the `story` list of `create_pdf`:
a `Paragraph(text, style)` or a `Spacer(width, height)`. -/
inductive Block
  | paragraph (text : List Char) (style : StyleName)
  | spacer (width height : Nat)
deriving DecidableEq

/-- One conversation turn, the `[role, message, is_edited]` triple of the
source (role and message text, edited flag). -/
structure Turn where
  role : List Char
  message : List Char
  edited : Bool
deriving DecidableEq

/-- Models Python `str.split('\n')` (line 99): split at every newline,
keeping empty pieces. -/
def pySplitNl : List Char → List (List Char)
  | [] => [[]]
  | c :: r =>
    if c = nlChar then [] :: pySplitNl r
    else
      match pySplitNl r with
      | [] => [[c]]
      | h :: t => (c :: h) :: t

/-- `" (Edited)"`. -/
def edited_suffix : List Char := sData " (Edited)"

/-- The blocks appended to the story for one turn by the loop body of
`create_pdf` (source lines 90-104): a heading paragraph with the cleaned
role (suffixed `" (Edited)"` when the edited flag is set), one content
paragraph per line of the cleaned message whose stripped form is non-empty
(carrying the stripped line), and a trailing `Spacer(1, 12)`. -/
def turn_blocks (t : Turn) : List Block :=
  let clean_role0 := clean_text_for_pdf t.role
  let clean_role := if t.edited then clean_role0 ++ edited_suffix else clean_role0
  let clean_message := clean_text_for_pdf t.message
  Block.paragraph clean_role StyleName.customHeading
    :: ((pySplitNl clean_message).filterMap (fun para =>
          if pyStrip para ≠ [] then
            some (Block.paragraph (pyStrip para) StyleName.customContent)
          else none)
        ++ [Block.spacer 1 12])

/-- The story blocks appended before the loop (source lines 80-87): the
title paragraph, the optional metadata paragraph with the current timestamp
`now`, and a `Spacer(1, 12)`.  `create_pdf` reads the wall clock; `now` is
that reading, passed explicitly. -/
def pdf_header (now : List Char) (include_metadata : Bool) : List Block :=
  Block.paragraph (sData "ChatGPT Conversation") StyleName.customTitle
    :: ((if include_metadata then
          [Block.paragraph (sData "Extracted on: " ++ now) StyleName.metadataStyle]
        else [])
        ++ [Block.spacer 1 12])

/-- The `try`-guarded story loop of `create_pdf` (lines 89-105), with the
per-turn body abstracted as a fallible `step` (in Python, any statement in
the loop body can raise): blocks of successive turns are concatenated; the
first raised exception aborts the whole loop with that exception. -/
def story_turns {ε : Type} (step : Turn → Except ε (List Block)) :
    List Turn → Except ε (List Block)
  | [] => Except.ok []
  | t :: r =>
    match step t with
    | Except.error e => Except.error e
    | Except.ok bs =>
      match story_turns step r with
      | Except.error e => Except.error e
      | Except.ok rest => Except.ok (bs ++ rest)

/-- Control-flow model of `create_pdf` (source lines 46-112).  The header
blocks are built before the `try`.  The `try` block runs the per-turn loop;
if it raises, the `except` handler reports the error and the function
returns `None` (modelled `Except.ok none`: the exception does not escape to
the caller).  Otherwise `doc.build(story)` (line 110, outside the
`try`/`except`) lays the story out and the buffer is returned (`Except.ok
(some story)`); the layout call itself is modelled as infallible.  A result
`Except.error e` would mean an exception escaping to the caller, which this
function never produces. -/
def create_pdf_run {ε : Type} (step : Turn → Except ε (List Block))
    (now : List Char) (conversation : List Turn) (include_metadata : Bool) :
    Except ε (Option (List Block)) :=
  match story_turns step conversation with
  | Except.error _ => Except.ok none
  | Except.ok body => Except.ok (some (pdf_header now include_metadata ++ body))

/-- The story `create_pdf` builds when no step fails (its per-turn body is
the concrete `turn_blocks`). -/
def create_pdf (now : List Char) (conversation : List Turn)
    (include_metadata : Bool) : List Block :=
  pdf_header now include_metadata ++ conversation.flatMap turn_blocks

theorem story_turns_error {ε : Type} (step : Turn → Except ε (List Block)) :
    ∀ (l : List Turn) (t : Turn) (e : ε), t ∈ l → step t = Except.error e →
      ∃ e', story_turns step l = Except.error e' := by
  intro l
  induction l with
  | nil => intro t e hmem _; simp at hmem
  | cons x r ih =>
    intro t e hmem herr
    rcases List.mem_cons.mp hmem with h1 | h2
    · subst h1
      exact ⟨e, by simp [story_turns, herr]⟩
    · cases hsx : step x with
      | error e2 => exact ⟨e2, by simp [story_turns, hsx]⟩
      | ok bs =>
        obtain ⟨e', he'⟩ := ih t e h2 herr
        exact ⟨e', by simp [story_turns, hsx, he']⟩

/-- C3: if any internal failure occurs while the Renderer is assembling the
document content (i.e. any per-turn step of the `try`-guarded story loop
raises), `create_pdf` returns the explicit "no result" signal `None` — it
neither lets the exception escape to the caller (`Except.error`) nor
returns a partial document (`Except.ok (some _)`).  This holds for every
conversation, every failing behaviour of the loop body, and both metadata
settings.  (The final layout call `doc.build(story)` on line 110 sits
outside the `try` block; the claim is about failures while assembling the
story content, which the `try` covers.) -/
theorem C3_error_yields_none {ε : Type} (step : Turn → Except ε (List Block))
    (now : List Char) (conversation : List Turn) (include_metadata : Bool)
    (t : Turn) (e : ε) (hmem : t ∈ conversation)
    (herr : step t = Except.error e) :
    create_pdf_run step now conversation include_metadata = Except.ok none := by
  obtain ⟨e', he'⟩ := story_turns_error step conversation t e hmem herr
  simp [create_pdf_run, he']

/-- Witness for C3: a one-turn conversation whose step always raises. -/
theorem C3_witness :
    create_pdf_run (fun _ => (Except.error () : Except Unit (List Block)))
        (sData "2024-01-01 00:00:00") [⟨sData "User", sData "Hi", false⟩] true
      = Except.ok none :=
  C3_error_yields_none (fun _ => (Except.error () : Except Unit (List Block)))
    (sData "2024-01-01 00:00:00") [⟨sData "User", sData "Hi", false⟩] true
    ⟨sData "User", sData "Hi", false⟩ () (by simp) rfl

/-- The texts of the body-text (`content_style`) paragraphs of a block
list, in order. -/
def content_texts (bs : List Block) : List (List Char) :=
  bs.filterMap (fun b =>
    match b with
    | Block.paragraph txt StyleName.customContent => some txt
    | _ => none)

/-- C5: for a turn whose message body is `"Hello\n\nWorld"`, the Renderer
emits exactly two non-empty content paragraph blocks, `"Hello"` and
`"World"` — the blank-line run collapses during cleaning and empty lines
after stripping produce no paragraph block. -/
theorem C5_two_paragraphs :
    content_texts (turn_blocks ⟨sData "User", sData "Hello\n\nWorld", false⟩)
      = [sData "Hello", sData "World"] := by
  decide

/-- C6: the rendered heading text of every turn is the cleaned role label,
suffixed with the literal `" (Edited)"` exactly when the edited flag is
true; in particular a turn with role `"User"` and `edited = true` renders
the heading `"User (Edited)"`, and with `edited = false` no suffix is
added. -/
theorem C6_edited_heading (role message : List Char) (edited : Bool) :
    ((turn_blocks ⟨role, message, edited⟩).head?
        = some (Block.paragraph
            (if edited then clean_text_for_pdf role ++ edited_suffix
             else clean_text_for_pdf role)
            StyleName.customHeading)) ∧
      (turn_blocks ⟨sData "User", message, true⟩).head?
        = some (Block.paragraph (sData "User (Edited)") StyleName.customHeading) := by
  constructor
  · rfl
  · have hU : clean_text_for_pdf (sData "User") ++ edited_suffix
        = sData "User (Edited)" := by decide
    simp only [turn_blocks, List.head?_cons, if_true]
    rw [hU]

/-- The pairing loop of `extract_conversation` (source lines 142-146): one
turn per message-body element, in order; the role is the text of the
role-label element at the same index when that index is in range, else the
placeholder `"Unknown"`; the message is the body text stripped; every turn
starts with `edited = false`.  `idx` is the loop counter of `enumerate`. -/
def build_conversation (roles : List (List Char)) (idx : Nat) :
    List (List Char) → List Turn
  | [] => []
  | content :: rest =>
    { role := if h : idx < roles.length then roles.get ⟨idx, h⟩ else sData "Unknown",
      message := pyStrip content,
      edited := false } :: build_conversation roles (idx + 1) rest

/-- `extract_conversation`'s pure pairing step, started at index 0. -/
def extract_pairs (bodies roles : List (List Char)) : List Turn :=
  build_conversation roles 0 bodies

theorem build_conversation_length (roles : List (List Char)) :
    ∀ (bodies : List (List Char)) (idx : Nat),
      (build_conversation roles idx bodies).length = bodies.length := by
  intro bodies
  induction bodies with
  | nil => intro idx; rfl
  | cons c rest ih =>
    intro idx
    simp [build_conversation, ih]

theorem build_conversation_get? (roles : List (List Char)) :
    ∀ (bodies : List (List Char)) (idx i : Nat), i < bodies.length →
      (build_conversation roles idx bodies).get? i
        = some { role := if h : idx + i < roles.length then
                   roles.get ⟨idx + i, h⟩ else sData "Unknown",
                 message := pyStrip ((bodies.get? i).getD []),
                 edited := false } := by
  intro bodies
  induction bodies with
  | nil => intro idx i hi; simp at hi
  | cons c rest ih =>
    intro idx i hi
    cases i with
    | zero =>
      simp [build_conversation]
    | succ i =>
      have hi' : i < rest.length := by
        simp only [List.length_cons] at hi
        omega
      show (build_conversation roles (idx + 1) rest).get? i = _
      rw [ih (idx + 1) i hi']
      have harith : idx + 1 + i = idx + (i + 1) := by omega
      rw [harith]
      rfl

/-- C7: for every pair of scraped element lists, the Extractor produces one
turn per message-body element in document order; turn `i`'s role is the
text of role element `i` when `i` is within the role list's length and the
placeholder `"Unknown"` otherwise, its message is the body text stripped,
and every produced turn has `edited = false`. -/
theorem C7_pairing (bodies roles : List (List Char)) :
    (extract_pairs bodies roles).length = bodies.length ∧
      ∀ i (hi : i < bodies.length),
        (extract_pairs bodies roles).get? i
          = some { role := if h : i < roles.length then roles.get ⟨i, h⟩
                           else sData "Unknown",
                   message := pyStrip (bodies.get ⟨i, hi⟩),
                   edited := false } := by
  refine ⟨build_conversation_length roles bodies 0, ?_⟩
  intro i hi
  rw [extract_pairs, build_conversation_get? roles bodies 0 i hi]
  simp only [Nat.zero_add]
  rw [List.get?_eq_get hi]
  rfl

/-- Witness for C7: two body elements, one role element: the second turn
falls back to the placeholder role. -/
theorem C7_witness :
    (extract_pairs [sData " a ", sData "b"] [sData "User"]).length = 2 ∧
      (extract_pairs [sData " a ", sData "b"] [sData "User"]).get? 1
        = some { role := sData "Unknown", message := sData "b", edited := false } := by
  constructor
  · rw [(C7_pairing [sData " a ", sData "b"] [sData "User"]).1]
    decide
  · rw [(C7_pairing [sData " a ", sData "b"] [sData "User"]).2 1 (by decide)]
    decide

/-- C10: every extracted turn's message is the body element's text with
leading and trailing whitespace stripped, while its role is the role
element's text taken verbatim, without trimming. -/
theorem C10_strip_message_role_verbatim (bodies roles : List (List Char))
    (i : Nat) (hi : i < bodies.length) (hr : i < roles.length) :
    (extract_pairs bodies roles).get? i
      = some { role := roles.get ⟨i, hr⟩,
               message := pyStrip (bodies.get ⟨i, hi⟩),
               edited := false } := by
  rw [extract_pairs, build_conversation_get? roles bodies 0 i hi]
  simp only [Nat.zero_add]
  rw [List.get?_eq_get hi, dif_pos hr]
  rfl

/-- Witness for C10: a body with surrounding whitespace is stripped; a role
with surrounding whitespace is kept verbatim. -/
theorem C10_witness :
    (extract_pairs [sData "  hi  "] [sData " User "]).get? 0
      = some { role := sData " User ", message := sData "hi", edited := false } := by
  rw [C10_strip_message_role_verbatim [sData "  hi  "] [sData " User "] 0
    (by decide) (by decide)]
  decide

/-- Control-flow model of `extract_conversation` (source lines 114-156).
`acquire` is the outcome of the browser acquisition (lines 117-129,
`webdriver.Chrome(...)`, which binds the local `driver` exactly when it
succeeds); `load` is the combined outcome of navigation, waiting and
scraping with a live driver (lines 131-140), yielding the two scraped text
lists on success.  The function returns the conversation result together
with the number of `driver.quit()` calls performed by the `finally` block
(lines 154-156): the `finally` always runs, and it calls `quit()` exactly
when `'driver' in locals()`, i.e. exactly when acquisition succeeded.  Any
exception is caught by the `except` (lines 150-152), which reports it and
returns `None`. -/
def extract_conversation_run {ε : Type} (acquire : Except ε Unit)
    (load : Except ε (List (List Char) × List (List Char))) :
    Option (List Turn) × Nat :=
  match acquire with
  | Except.error _ => (none, 0)
  | Except.ok _ =>
    match load with
    | Except.error _ => (none, 1)
    | Except.ok (bodies, roles) => (some (extract_pairs bodies roles), 1)

/-- C8: on every exit path of the Extractor on which the browser session
was acquired — normal return, or an exception anywhere during navigation,
waiting or scraping — the browser session is torn down exactly once
(`driver.quit()` runs exactly one time, via the `finally` block) before
control returns to the caller; in particular the Extractor never returns
with a live browser session. -/
theorem C8_teardown_once {ε : Type} (acquire : Except ε Unit)
    (load : Except ε (List (List Char) × List (List Char)))
    (h : acquire = Except.ok ()) :
    (extract_conversation_run acquire load).2 = 1 := by
  subst h
  cases load with
  | error e => rfl
  | ok p =>
    cases p
    rfl

/-- Witness for C8: acquisition succeeds, navigation throws; the Extractor
reports no result and quit ran exactly once. -/
theorem C8_witness :
    (extract_conversation_run (Except.ok ())
        (Except.error () : Except Unit (List (List Char) × List (List Char)))).2
      = 1 :=
  C8_teardown_once (Except.ok ())
    (Except.error () : Except Unit (List (List Char) × List (List Char))) rfl
